import Mathlib

/-!
Verification of the pycardano transaction model against its specification.

The repository ships only the test suite and an example script; the library
itself (value algebra, canonical CBOR codec, signing engine, COSE envelope)
is not part of the sources.  Every definition below carrying a doc comment
starting with Modelled from the spec is therefore a shallow embedding built
from the specification text (and, for the cryptographic primitives, from the
public algorithm the spec's fixtures pin down), with byte strings as lists of
naturals, dictionaries as association lists, and fallible operations in
Except.
-/

set_option maxRecDepth 20000

/-! ## Errors -/

/-- Modelled from the spec: the InvalidOperationException raised when an
arithmetic precondition is violated, for example a subtraction producing a
negative component. -/
structure InvalidOperationException where
deriving DecidableEq

/-- Modelled from the spec: the TypeError raised when a comparison is applied
to incompatible types. -/
structure PyTypeError where
deriving DecidableEq

/-- Modelled from the spec: the DeserializeError raised when a primitive tree
does not match the expected shape or arity. -/
structure DeserializeError where
deriving DecidableEq

deriving instance DecidableEq for Except

/-- True exactly on the error branch of an Except value. -/
def eIsErr : Except ε α → Bool
  | .error _ => true
  | .ok _ => false

/-! ## Association-list dictionaries

Python dictionaries (insertion ordered, unique keys, equality ignoring
order) are embedded as association lists; the uniqueness invariant is carried
as a hypothesis where a theorem needs it. -/

/-- Byte strings are lists of naturals. -/
abbrev Bytes := List Nat

/-- First value bound to a key in an association list, if any. -/
def alookup (k : Bytes) : List (Bytes × α) → Option α
  | [] => none
  | kv :: rest => if k = kv.1 then some kv.2 else alookup k rest

/-- Keys of an association list, in order. -/
def akeys (m : List (Bytes × α)) : List Bytes := m.map Prod.fst

/-! ## Value algebra -/

/-- An Asset maps token names to signed integer quantities. -/
abbrev Asset := List (Bytes × Int)

/-- A MultiAsset maps policy identifiers to Assets. -/
abbrev MultiAsset := List (Bytes × Asset)

/-- Modelled from the spec: Asset addition is the key-wise sum; a key present
in either operand appears in the result, the other operand contributing an
implicit zero.  Entries of the left operand come first, then the keys only
the right operand has, mirroring an in-place dictionary update. -/
def Asset.add (a b : Asset) : Asset :=
  a.map (fun kv => (kv.1, kv.2 + ((alookup kv.1 b).getD 0)))
    ++ (b.filter (fun kv => (alookup kv.1 a).isNone))

/-- Modelled from the spec: the raw key-wise difference over the union of the
key sets, before the sign check; a key only the subtrahend has yields the
negated quantity. -/
def Asset.rawSub (a b : Asset) : Asset :=
  a.map (fun kv => (kv.1, kv.2 - ((alookup kv.1 b).getD 0)))
    ++ ((b.filter (fun kv => (alookup kv.1 a).isNone)).map (fun kv => (kv.1, -kv.2)))

/-- Modelled from the spec: Asset subtraction fails with
InvalidOperationException if any resulting quantity would be negative, and
otherwise returns the key-wise difference. -/
def Asset.subtract (a b : Asset) : Except InvalidOperationException Asset :=
  if (Asset.rawSub a b).all (fun kv => 0 ≤ kv.2) then .ok (Asset.rawSub a b)
  else .error {}

/-- Modelled from the spec: the partial order on Assets; true iff every key
of the left operand exists in the right one with a quantity at most the
right-hand quantity. -/
def Asset.le (a b : Asset) : Bool :=
  a.all (fun kv =>
    match alookup kv.1 b with
    | some w => decide (kv.2 ≤ w)
    | none => false)

/-- Modelled from the spec: dictionary equality of Assets, the same key set
with equal quantities, insertion order irrelevant. -/
def Asset.eqB (a b : Asset) : Bool :=
  (a.all (fun kv => alookup kv.1 b = some kv.2)) &&
    (b.all (fun kv => alookup kv.1 a = some kv.2))

/-- Map each element of a list through a fallible function, stopping at the
first error, as a Python for loop over a dictionary would. -/
def exMap (f : α → Except ε β) : List α → Except ε (List β)
  | [] => .ok []
  | x :: xs =>
    match f x, exMap f xs with
    | .error e, _ => .error e
    | .ok _, .error e => .error e
    | .ok y, .ok ys => .ok (y :: ys)

/-- Modelled from the spec: MultiAsset addition lifts Asset addition per
policy id, a policy missing from one operand behaving as an empty Asset. -/
def MultiAsset.add (a b : MultiAsset) : MultiAsset :=
  a.map (fun kv => (kv.1, Asset.add kv.2 ((alookup kv.1 b).getD [])))
    ++ (b.filter (fun kv => (alookup kv.1 a).isNone))

/-- Modelled from the spec: MultiAsset subtraction lifts Asset subtraction
per policy id, a policy missing from one operand behaving as an empty Asset;
it fails with InvalidOperationException exactly when some per-policy Asset
subtraction does. -/
def MultiAsset.subtract (a b : MultiAsset) : Except InvalidOperationException MultiAsset :=
  match exMap (fun kv =>
          (Asset.subtract kv.2 ((alookup kv.1 b).getD [])).map (fun c => (kv.1, c))) a,
        exMap (fun kv =>
          (Asset.subtract [] kv.2).map (fun c => (kv.1, c)))
          (b.filter (fun kv => (alookup kv.1 a).isNone)) with
  | .error e, _ => .error e
  | .ok _, .error e => .error e
  | .ok xs, .ok ys => .ok (xs ++ ys)

/-- Modelled from the spec: the partial order on MultiAssets lifts the Asset
order per policy id, a missing policy behaving as an empty Asset. -/
def MultiAsset.le (a b : MultiAsset) : Bool :=
  a.all (fun kv => Asset.le kv.2 ((alookup kv.1 b).getD []))

/-- Modelled from the spec: dictionary equality of MultiAssets, comparing the
inner Assets by dictionary equality as well. -/
def MultiAsset.eqB (a b : MultiAsset) : Bool :=
  (a.all (fun kv =>
    match alookup kv.1 b with
    | some x => Asset.eqB kv.2 x
    | none => false)) &&
  (b.all (fun kv =>
    match alookup kv.1 a with
    | some x => Asset.eqB kv.2 x
    | none => false))

/-- Quantity of a token name under a policy inside a MultiAsset, zero when
the policy or the name is absent. -/
def maQty (m : MultiAsset) (p n : Bytes) : Int :=
  (alookup n ((alookup p m).getD [])).getD 0

/-- Modelled from the spec: a Value is a base coin quantity together with a
MultiAsset. -/
structure Value where
  coin : Int
  multiAsset : MultiAsset
deriving DecidableEq

/-- Modelled from the spec: adding an integer to a Value adds to the base
quantity only. -/
def Value.addInt (v : Value) (n : Int) : Value :=
  { coin := v.coin + n, multiAsset := v.multiAsset }

/-- Modelled from the spec: Value subtraction fails with
InvalidOperationException if the base quantity would go negative or the
MultiAsset subtraction would fail. -/
def Value.sub (v w : Value) : Except InvalidOperationException Value :=
  if v.coin - w.coin < 0 then .error {}
  else
    match MultiAsset.subtract v.multiAsset w.multiAsset with
    | .error e => .error e
    | .ok m => .ok { coin := v.coin - w.coin, multiAsset := m }

/-- Modelled from the spec: the partial order on Values compares the base
quantity and the MultiAsset component-wise. -/
def Value.le (v w : Value) : Bool :=
  decide (v.coin ≤ w.coin) && MultiAsset.le v.multiAsset w.multiAsset

/-- Modelled from the spec: equality of Values, the base quantities equal and
the MultiAssets equal as dictionaries. -/
def Value.eqB (v w : Value) : Bool :=
  decide (v.coin = w.coin) && MultiAsset.eqB v.multiAsset w.multiAsset

/-- Modelled from the spec: a dynamically typed comparison operand, used to
express that comparing an Asset or MultiAsset against a non-Asset value
raises TypeError. -/
inductive PyObj where
  | ofAsset : Asset → PyObj
  | ofMultiAsset : MultiAsset → PyObj
  | ofInt : Int → PyObj

/-- Modelled from the spec: dynamic comparison of an Asset against an
arbitrary object; a non-Asset operand raises TypeError. -/
def Asset.leDyn (a : Asset) : PyObj → Except PyTypeError Bool
  | .ofAsset b => .ok (Asset.le a b)
  | _ => .error {}

/-- Modelled from the spec: dynamic comparison of a MultiAsset against an
arbitrary object; a non-MultiAsset operand raises TypeError. -/
def MultiAsset.leDyn (a : MultiAsset) : PyObj → Except PyTypeError Bool
  | .ofMultiAsset b => .ok (MultiAsset.le a b)
  | _ => .error {}

/-! ## Primitive trees -/

/-- Modelled from the spec: the closed set of primitive-tree variants every
participating type serializes through.  Integers, byte strings, booleans,
null, sequences and key-value maps; the Tagged variant of the spec is used by
the binary layer only for big integers and is folded into the integer case. -/
inductive PrimT where
  | pint : Int → PrimT
  | pbytes : Bytes → PrimT
  | pbool : Bool → PrimT
  | pnull : PrimT
  | parr : List PrimT → PrimT
  | pmap : List (PrimT × PrimT) → PrimT

/-! ## Canonical binary encoding -/

/-- Big-endian byte expansion of a natural in exactly k bytes. -/
def beBytes : Nat → Nat → Bytes
  | 0, _ => []
  | k + 1, n => beBytes k (n / 256) ++ [n % 256]

/-- Natural denoted by a big-endian byte string. -/
def fromBE (bs : Bytes) : Nat := bs.foldl (fun acc b => acc * 256 + b) 0

/-- Minimal big-endian byte expansion, with explicit recursion fuel. -/
def minBEAux : Nat → Nat → Bytes
  | 0, _ => []
  | f + 1, n => if n = 0 then [] else minBEAux f (n / 256) ++ [n % 256]

/-- Minimal big-endian byte expansion of a natural; zero gets no bytes. -/
def minBE (n : Nat) : Bytes := minBEAux n n

/-- Modelled from the spec: the additional-information nibble and the
following argument bytes of a canonical header for argument n below 2 to the
64, shortest form first. -/
def encArg (n : Nat) : Nat × Bytes :=
  if n < 24 then (n, [])
  else if n < 2 ^ 8 then (24, [n])
  else if n < 2 ^ 16 then (25, beBytes 2 n)
  else if n < 2 ^ 32 then (26, beBytes 4 n)
  else (27, beBytes 8 n)

/-- Canonical header of a data item: major type and argument. -/
def encHead (mt n : Nat) : Bytes :=
  (32 * mt + (encArg n).1) :: (encArg n).2

mutual
/-- Modelled from the spec: the deterministic canonical binary encoding of a
primitive tree, the concise-binary layout the fixtures pin down, definite
lengths and shortest headers everywhere; integers beyond 64 bits use the big
integer tags 2 and 3 over a minimal magnitude byte string. -/
def encodeP : PrimT → Bytes
  | .pint i =>
    if 0 ≤ i then
      if i.toNat < 2 ^ 64 then encHead 0 i.toNat
      else 194 :: (encHead 2 (minBE i.toNat).length ++ minBE i.toNat)
    else
      if (-1 - i).toNat < 2 ^ 64 then encHead 1 (-1 - i).toNat
      else 195 :: (encHead 2 (minBE (-1 - i).toNat).length ++ minBE (-1 - i).toNat)
  | .pbytes b => encHead 2 b.length ++ b
  | .pbool false => [244]
  | .pbool true => [245]
  | .pnull => [246]
  | .parr l => encHead 4 l.length ++ encodeL l
  | .pmap m => encHead 5 m.length ++ encodeM m

/-- Encoding of the elements of a sequence, in order. -/
def encodeL : List PrimT → Bytes
  | [] => []
  | t :: ts => encodeP t ++ encodeL ts

/-- Encoding of the entries of a map, keys before values, in order. -/
def encodeM : List (PrimT × PrimT) → Bytes
  | [] => []
  | kv :: rest => encodeP kv.1 ++ encodeP kv.2 ++ encodeM rest
end

/-- Take exactly k bytes off the front of the input. -/
def readN : Nat → Bytes → Option (Bytes × Bytes)
  | 0, bs => some ([], bs)
  | _ + 1, [] => none
  | k + 1, b :: bs =>
    match readN k bs with
    | some (xs, r) => some (b :: xs, r)
    | none => none

/-- Decode the argument of a header whose additional information is ai. -/
def readLen (ai : Nat) (bs : Bytes) : Option (Nat × Bytes) :=
  if ai < 24 then some (ai, bs)
  else if ai = 24 then
    match bs with
    | b :: r => some (b, r)
    | [] => none
  else if ai = 25 then
    match readN 2 bs with
    | some (xs, r) => some (fromBE xs, r)
    | none => none
  else if ai = 26 then
    match readN 4 bs with
    | some (xs, r) => some (fromBE xs, r)
    | none => none
  else if ai = 27 then
    match readN 8 bs with
    | some (xs, r) => some (fromBE xs, r)
    | none => none
  else none

mutual
/-- Modelled from the spec: the binary decoder, fuel-indexed to make the
recursion structural; it consumes one data item and returns it with the
remaining bytes. -/
def decP : Nat → Bytes → Option (PrimT × Bytes)
  | 0, _ => none
  | _ + 1, [] => none
  | f + 1, h :: bs =>
    let mt := h / 32
    let ai := h % 32
    if mt = 0 then
      match readLen ai bs with
      | some (n, r) => some (.pint (Int.ofNat n), r)
      | none => none
    else if mt = 1 then
      match readLen ai bs with
      | some (n, r) => some (.pint (-1 - Int.ofNat n), r)
      | none => none
    else if mt = 2 then
      match readLen ai bs with
      | some (n, r) =>
        match readN n r with
        | some (xs, r2) => some (.pbytes xs, r2)
        | none => none
      | none => none
    else if mt = 4 then
      match readLen ai bs with
      | some (n, r) =>
        match decList f n r with
        | some (ts, r2) => some (.parr ts, r2)
        | none => none
      | none => none
    else if mt = 5 then
      match readLen ai bs with
      | some (n, r) =>
        match decPairs f n r with
        | some (m, r2) => some (.pmap m, r2)
        | none => none
      | none => none
    else if mt = 6 then
      match readLen ai bs with
      | some (t, r) =>
        if t = 2 then
          match decP f r with
          | some (.pbytes xs, r2) => some (.pint (Int.ofNat (fromBE xs)), r2)
          | _ => none
        else if t = 3 then
          match decP f r with
          | some (.pbytes xs, r2) => some (.pint (-1 - Int.ofNat (fromBE xs)), r2)
          | _ => none
        else none
      | none => none
    else
      if h = 244 then some (.pbool false, bs)
      else if h = 245 then some (.pbool true, bs)
      else if h = 246 then some (.pnull, bs)
      else none

/-- Decode exactly n consecutive data items. -/
def decList : Nat → Nat → Bytes → Option (List PrimT × Bytes)
  | _, 0, bs => some ([], bs)
  | 0, _ + 1, _ => none
  | f + 1, n + 1, bs =>
    match decP f bs with
    | some (t, r) =>
      match decList f n r with
      | some (ts, r2) => some (t :: ts, r2)
      | none => none
    | none => none

/-- Decode exactly n consecutive key-value pairs. -/
def decPairs : Nat → Nat → Bytes → Option (List (PrimT × PrimT) × Bytes)
  | _, 0, bs => some ([], bs)
  | 0, _ + 1, _ => none
  | f + 1, n + 1, bs =>
    match decP f bs with
    | some (k, r) =>
      match decP f r with
      | some (v, r2) =>
        match decPairs f n r2 with
        | some (m, r3) => some ((k, v) :: m, r3)
        | none => none
      | none => none
    | none => none
end

mutual
/-- Fuel bound sufficient to decode one encoded tree. -/
def sizeT : PrimT → Nat
  | .pint _ => 2
  | .pbytes _ => 1
  | .pbool _ => 1
  | .pnull => 1
  | .parr l => 1 + sizeL l
  | .pmap m => 1 + sizeM m

/-- Fuel bound for a sequence of trees. -/
def sizeL : List PrimT → Nat
  | [] => 0
  | t :: ts => 1 + sizeT t + sizeL ts

/-- Fuel bound for a list of key-value pairs. -/
def sizeM : List (PrimT × PrimT) → Nat
  | [] => 0
  | kv :: rest => 1 + sizeT kv.1 + sizeT kv.2 + sizeM rest
end

mutual
/-- Realizability of a tree for the binary layer: every length and count
fits the 64-bit argument of a canonical header, as it does for any byte
string an actual machine can hold.  Big integers are unrestricted up to the
astronomically large bound on the length of their magnitude bytes. -/
def wfT : PrimT → Bool
  | .pint i =>
    if 0 ≤ i then decide ((minBE i.toNat).length < 2 ^ 64)
    else decide ((minBE (-1 - i).toNat).length < 2 ^ 64)
  | .pbytes b => decide (b.length < 2 ^ 64)
  | .pbool _ => true
  | .pnull => true
  | .parr l => decide (l.length < 2 ^ 64) && wfL l
  | .pmap m => decide (m.length < 2 ^ 64) && wfM m

/-- Realizability of every tree of a sequence. -/
def wfL : List PrimT → Bool
  | [] => true
  | t :: ts => wfT t && wfL ts

/-- Realizability of every tree of a pair list. -/
def wfM : List (PrimT × PrimT) → Bool
  | [] => true
  | kv :: rest => wfT kv.1 && wfT kv.2 && wfM rest
end

/-- Modelled from the spec: the binary layer decoder as a function of the
byte string alone; the fuel three times the input length always suffices for
the encoding of a realizable tree.  The input must be consumed entirely. -/
def decodeBytes (bs : Bytes) : Option PrimT :=
  match decP (3 * bs.length) bs with
  | some (t, []) => some t
  | _ => none

/-- The continuation of the decoder after a successfully read header: the
handling of one data item of major type mt with argument n over the
remaining bytes. -/
def decPBody (f mt n : Nat) (r : Bytes) : Option (PrimT × Bytes) :=
  if mt = 0 then some (.pint (Int.ofNat n), r)
  else if mt = 1 then some (.pint (-1 - Int.ofNat n), r)
  else if mt = 2 then
    match readN n r with
    | some (xs, r2) => some (.pbytes xs, r2)
    | none => none
  else if mt = 4 then
    match decList f n r with
    | some (ts, r2) => some (.parr ts, r2)
    | none => none
  else if mt = 5 then
    match decPairs f n r with
    | some (m, r2) => some (.pmap m, r2)
    | none => none
  else if mt = 6 then
    if n = 2 then
      match decP f r with
      | some (.pbytes xs, r2) => some (.pint (Int.ofNat (fromBE xs)), r2)
      | _ => none
    else if n = 3 then
      match decP f r with
      | some (.pbytes xs, r2) => some (.pint (-1 - Int.ofNat (fromBE xs)), r2)
      | _ => none
    else none
  else none

/-! ## Transaction model -/

/-- Modelled from the spec: a transaction input is the identifier of the
referenced transaction together with a non-negative output index. -/
structure TransactionInput where
  transaction_id : Bytes
  index : Nat
deriving DecidableEq

/-- Modelled from the spec: the amount of an output is either a bare coin
quantity or a full Value. -/
inductive Amount where
  | coin : Int → Amount
  | value : Value → Amount
deriving DecidableEq

/-- Modelled from the spec: a transaction output pairs opaque address bytes
with an amount; decoding the textual address form is out of scope, the core
consumes the bytes. -/
structure TransactionOutput where
  address : Bytes
  amount : Amount
deriving DecidableEq

/-- Modelled from the spec: the transaction body with its required fields and
the optional fields the fixtures exercise, collateral inputs and required
signer key hashes; an optional field participates in the canonical encoding
exactly when it is set.  The remaining optional fields of the spec are never
set by any claim and are left out of the embedding. -/
structure TransactionBody where
  inputs : List TransactionInput
  outputs : List TransactionOutput
  fee : Int
  collateral : Option (List TransactionInput)
  required_signers : Option (List Bytes)
deriving DecidableEq

/-- Modelled from the spec: a verification-key witness pairs a verification
key with a signature over the body hash. -/
structure VerificationKeyWitness where
  vkey : Bytes
  signature : Bytes
deriving DecidableEq

/-- Modelled from the spec: the witness set aggregates the verification-key
witnesses, absent when unset. -/
structure TransactionWitnessSet where
  vkey_witnesses : Option (List VerificationKeyWitness)
deriving DecidableEq

/-- Modelled from the spec: a transaction is a body together with a witness
set; the optional script-validity flag and auxiliary data are never set by
any claim and are left out of the embedding. -/
structure Transaction where
  transaction_body : TransactionBody
  transaction_witness_set : TransactionWitnessSet
deriving DecidableEq

/-! ## Object to primitive-tree conversion -/

/-- Modelled from the spec: an Asset serializes as a map from name bytes to
integer quantities. -/
def Asset.toPrimitive (a : Asset) : PrimT :=
  .pmap (a.map (fun kv => (.pbytes kv.1, .pint kv.2)))

/-- Modelled from the spec: an Asset deserializes from a map whose keys are
byte strings and whose values are integers; any other shape is a
DeserializeError. -/
def Asset.fromPrimitive : PrimT → Except DeserializeError Asset
  | .pmap m =>
    exMap (fun kv =>
      match kv with
      | (.pbytes k, .pint v) => .ok (k, v)
      | _ => .error {}) m
  | _ => .error {}

/-- Modelled from the spec: a MultiAsset serializes as a map from policy
bytes to serialized Assets. -/
def MultiAsset.toPrimitive (m : MultiAsset) : PrimT :=
  .pmap (m.map (fun kv => (.pbytes kv.1, Asset.toPrimitive kv.2)))

/-- Modelled from the spec: a MultiAsset deserializes from a map whose keys
are byte strings and whose values deserialize as Assets. -/
def MultiAsset.fromPrimitive : PrimT → Except DeserializeError MultiAsset
  | .pmap m =>
    exMap (fun kv =>
      match kv with
      | (.pbytes k, v) =>
        match Asset.fromPrimitive v with
        | .ok a => .ok (k, a)
        | .error e => .error e
      | _ => .error {}) m
  | _ => .error {}

/-- Modelled from the spec: a Value serializes as the two-element sequence of
the coin quantity and the MultiAsset map. -/
def Value.toPrimitive (v : Value) : PrimT :=
  .parr [.pint v.coin, MultiAsset.toPrimitive v.multiAsset]

/-- Modelled from the spec: a Value deserializes from a two-element sequence
of an integer and a MultiAsset map. -/
def Value.fromPrimitive : PrimT → Except DeserializeError Value
  | .parr [.pint c, m] =>
    match MultiAsset.fromPrimitive m with
    | .ok ma => .ok { coin := c, multiAsset := ma }
    | .error e => .error e
  | _ => .error {}

/-- Modelled from the spec: a transaction input serializes as the sequence of
the transaction id bytes and the output index. -/
def TransactionInput.toPrimitive (x : TransactionInput) : PrimT :=
  .parr [.pbytes x.transaction_id, .pint (Int.ofNat x.index)]

/-- Modelled from the spec: a transaction input deserializes from a sequence
of the id bytes and a non-negative index. -/
def TransactionInput.fromPrimitive : PrimT → Except DeserializeError TransactionInput
  | .parr [.pbytes b, .pint (Int.ofNat n)] => .ok { transaction_id := b, index := n }
  | _ => .error {}

/-- Modelled from the spec: an amount serializes as a bare integer or as a
serialized Value. -/
def Amount.toPrimitive : Amount → PrimT
  | .coin n => .pint n
  | .value v => Value.toPrimitive v

/-- Modelled from the spec: an amount deserializes from a bare integer or
from a Value sequence. -/
def Amount.fromPrimitive : PrimT → Except DeserializeError Amount
  | .pint n => .ok (.coin n)
  | .parr l =>
    match Value.fromPrimitive (.parr l) with
    | .ok v => .ok (.value v)
    | .error e => .error e
  | _ => .error {}

/-- Modelled from the spec: an output serializes as the sequence of the
address bytes and the amount. -/
def TransactionOutput.toPrimitive (x : TransactionOutput) : PrimT :=
  .parr [.pbytes x.address, Amount.toPrimitive x.amount]

/-- Modelled from the spec: an output deserializes from a sequence of address
bytes and an amount. -/
def TransactionOutput.fromPrimitive : PrimT → Except DeserializeError TransactionOutput
  | .parr [.pbytes a, am] =>
    match Amount.fromPrimitive am with
    | .ok m => .ok { address := a, amount := m }
    | .error e => .error e
  | _ => .error {}

/-- Modelled from the spec: the body serializes as a sparse integer-keyed
map, key 0 the inputs, key 1 the outputs, key 2 the fee, key 13 the
collateral inputs and key 14 the required signers, each optional entry
present exactly when the field is set. -/
def TransactionBody.toPrimitive (x : TransactionBody) : PrimT :=
  .pmap ([((.pint 0 : PrimT), (.parr (x.inputs.map TransactionInput.toPrimitive) : PrimT)),
          (.pint 1, .parr (x.outputs.map TransactionOutput.toPrimitive)),
          (.pint 2, .pint x.fee)]
    ++ (match x.collateral with
        | some c => [((.pint 13 : PrimT), (.parr (c.map TransactionInput.toPrimitive) : PrimT))]
        | none => [])
    ++ (match x.required_signers with
        | some r => [((.pint 14 : PrimT), (.parr (r.map PrimT.pbytes) : PrimT))]
        | none => []))

/-- Shape check of a byte-string tree. -/
def pbytesOf : PrimT → Except DeserializeError Bytes
  | .pbytes b => .ok b
  | _ => .error {}

/-- Modelled from the spec: the optional tail of a serialized body, the
collateral entry under key 13 and the required-signers entry under key 14, in
canonical key order, each possibly absent. -/
def TransactionBody.fromPrimTail :
    List (PrimT × PrimT) →
      Except DeserializeError (Option (List TransactionInput) × Option (List Bytes))
  | [] => .ok (none, none)
  | [(.pint (Int.ofNat 13), .parr c)] =>
    match exMap TransactionInput.fromPrimitive c with
    | .ok cs => .ok (some cs, none)
    | .error e => .error e
  | [(.pint (Int.ofNat 14), .parr r)] =>
    match exMap pbytesOf r with
    | .ok rs => .ok (none, some rs)
    | .error e => .error e
  | [(.pint (Int.ofNat 13), .parr c), (.pint (Int.ofNat 14), .parr r)] =>
    match exMap TransactionInput.fromPrimitive c, exMap pbytesOf r with
    | .ok cs, .ok rs => .ok (some cs, some rs)
    | .error e, _ => .error e
    | _, .error e => .error e
  | _ => .error {}

/-- Modelled from the spec: the body deserializes from a sparse integer-keyed
map, the three required entries first, then the optional tail. -/
def TransactionBody.fromPrimitive : PrimT → Except DeserializeError TransactionBody
  | .pmap ((.pint (Int.ofNat 0), .parr ins)
            :: (.pint (Int.ofNat 1), .parr outs)
            :: (.pint (Int.ofNat 2), .pint fee) :: rest) =>
    match exMap TransactionInput.fromPrimitive ins,
          exMap TransactionOutput.fromPrimitive outs,
          TransactionBody.fromPrimTail rest with
    | .ok i, .ok o, .ok (c, r) =>
      .ok { inputs := i, outputs := o, fee := fee, collateral := c, required_signers := r }
    | .error e, _, _ => .error e
    | _, .error e, _ => .error e
    | _, _, .error e => .error e
  | _ => .error {}

/-- Modelled from the spec: a verification-key witness serializes as the
sequence of the key bytes and the signature bytes. -/
def VerificationKeyWitness.toPrimitive (w : VerificationKeyWitness) : PrimT :=
  .parr [.pbytes w.vkey, .pbytes w.signature]

/-- Modelled from the spec: a verification-key witness deserializes from a
two-element sequence of byte strings. -/
def VerificationKeyWitness.fromPrimitive :
    PrimT → Except DeserializeError VerificationKeyWitness
  | .parr [.pbytes k, .pbytes s] => .ok { vkey := k, signature := s }
  | _ => .error {}

/-- Modelled from the spec: the witness set serializes as a sparse map whose
key 0 holds the verification-key witnesses when they are set. -/
def TransactionWitnessSet.toPrimitive (w : TransactionWitnessSet) : PrimT :=
  .pmap (match w.vkey_witnesses with
    | some l => [((.pint 0 : PrimT), (.parr (l.map VerificationKeyWitness.toPrimitive) : PrimT))]
    | none => [])

/-- Modelled from the spec: the witness set deserializes from the sparse map
form, an empty map meaning no witnesses are set. -/
def TransactionWitnessSet.fromPrimitive :
    PrimT → Except DeserializeError TransactionWitnessSet
  | .pmap [] => .ok { vkey_witnesses := none }
  | .pmap [(.pint (Int.ofNat 0), .parr l)] =>
    match exMap VerificationKeyWitness.fromPrimitive l with
    | .ok ws => .ok { vkey_witnesses := some ws }
    | .error e => .error e
  | _ => .error {}

/-- Modelled from the spec: a transaction serializes as the sequence of its
body and its witness set. -/
def Transaction.toPrimitive (t : Transaction) : PrimT :=
  .parr [TransactionBody.toPrimitive t.transaction_body,
         TransactionWitnessSet.toPrimitive t.transaction_witness_set]

/-- Modelled from the spec: a transaction deserializes from the two-element
sequence of a body and a witness set. -/
def Transaction.fromPrimitive : PrimT → Except DeserializeError Transaction
  | .parr [b, w] =>
    match TransactionBody.fromPrimitive b, TransactionWitnessSet.fromPrimitive w with
    | .ok tb, .ok tw =>
      .ok { transaction_body := tb, transaction_witness_set := tw }
    | .error e, _ => .error e
    | _, .error e => .error e
  | _ => .error {}

/-- Modelled from the spec: the full decode of the binary layer, canonical
bytes to primitive tree, then the shape-checked conversion. -/
def fromCborWith (f : PrimT → Except DeserializeError α) (bs : Bytes) :
    Except DeserializeError α :=
  match decodeBytes bs with
  | some t => f t
  | none => .error {}

/-! ## Fixtures from the test suite -/

/-- Transaction id of the fixed input of the tests. -/
def txIdFixture : Bytes := [115, 43, 253, 103, 230, 107, 232, 232, 40, 131, 73, 252, 170, 162, 41, 73, 115, 239, 98, 113, 204, 24, 154, 35, 155, 180, 49, 39, 84, 1, 184, 229]

/-- Raw bytes of the fixed test address, the textual form being out of scope. -/
def addrFixture : Bytes := [96, 246, 83, 40, 80, 225, 188, 206, 233, 199, 42, 145, 19, 173, 152, 188, 197, 219, 179, 13, 42, 201, 96, 38, 36, 68, 246, 229, 244]

/-- Expected canonical encoding of the fixed transaction input. -/
def txInCborFixture : Bytes := [130, 88, 32, 115, 43, 253, 103, 230, 107, 232, 232, 40, 131, 73, 252, 170, 162, 41, 73, 115, 239, 98, 113, 204, 24, 154, 35, 155, 180, 49, 39, 84, 1, 184, 229, 0]

/-- Expected canonical encoding of the fixed first output. -/
def txOutCborFixture : Bytes := [130, 88, 29, 96, 246, 83, 40, 80, 225, 188, 206, 233, 199, 42, 145, 19, 173, 152, 188, 197, 219, 179, 13, 42, 201, 96, 38, 36, 68, 246, 229, 244, 27, 0, 0, 0, 23, 72, 118, 232, 0]

/-- Expected canonical encoding of the fixed transaction body. -/
def bodyCborFixture : Bytes :=
  [165, 0, 129, 130, 88, 32, 115, 43, 253, 103, 230, 107, 232, 232, 40, 131, 73, 252, 170, 162, 41, 73, 115, 239, 98, 113, 204, 24, 154, 35, 155, 180, 49, 39, 84, 1, 184, 229, 0, 1, 130, 130, 88, 29, 96, 246, 83, 40, 80, 225, 188, 206, 233, 199, 42, 145, 19, 173, 152, 188, 197, 219, 179, 13, 42, 201, 96, 38, 36, 68, 246, 229, 244, 27, 0, 0, 0, 23, 72, 118, 232, 0, 130, 88, 29, 96, 246, 83, 40, 80, 225, 188, 206, 233, 199, 42, 145, 19, 173, 152, 188, 197, 219, 179, 13, 42, 201, 96, 38, 36, 68, 246, 229, 244, 27, 0, 0, 0, 186, 67, 180, 183, 247, 2, 26, 0, 2, 136, 9, 13, 128, 14, 128]

/-- Payload of the fixed deterministic signing key of the tests. -/
def skSeedFixture : Bytes := [9, 59, 229, 205, 57, 135, 208, 201, 253, 136, 84, 239, 144, 143, 119, 70, 182, 158, 45, 115, 50, 13, 182, 220, 15, 120, 13, 129, 88, 91, 132, 194]

/-- The literal signature the tests expect from signing the body hash. -/
def sigFixture : Bytes :=
  [182, 43, 45, 103, 186, 24, 84, 76, 224, 161, 151, 53, 249, 82, 139, 137, 11, 26, 42, 127, 138, 249, 3, 163, 222, 146, 127, 145, 184, 31, 219, 70, 189, 121, 201, 21, 199, 5, 84, 219, 164, 105, 170, 184, 163, 57, 144, 167, 29, 224, 176, 36, 159, 76, 126, 112, 157, 96, 41, 187, 172, 225, 80, 4]

/-- The fixed transaction input of the tests. -/
def txInFixture : TransactionInput :=
  { transaction_id := txIdFixture, index := 0 }

/-- The fixed transaction body of the tests: the one input, two outputs to
the same address, the fee, an empty collateral list and an empty
required-signers list. -/
def bodyFixture : TransactionBody :=
  { inputs := [txInFixture]
    outputs := [{ address := addrFixture, amount := .coin 100000000000 },
                { address := addrFixture, amount := .coin 799999834103 }]
    fee := 165897
    collateral := some []
    required_signers := some [] }

/-- Binary encoding of a transaction input. -/
def TransactionInput.toCbor (x : TransactionInput) : Bytes :=
  encodeP (TransactionInput.toPrimitive x)

/-- Binary encoding of a transaction output. -/
def TransactionOutput.toCbor (x : TransactionOutput) : Bytes :=
  encodeP (TransactionOutput.toPrimitive x)

/-- Binary encoding of a transaction body. -/
def TransactionBody.toCbor (x : TransactionBody) : Bytes :=
  encodeP (TransactionBody.toPrimitive x)

/-- Binary encoding of a transaction. -/
def Transaction.toCbor (x : Transaction) : Bytes :=
  encodeP (Transaction.toPrimitive x)

/-- Binary encoding of an Asset. -/
def Asset.toCbor (a : Asset) : Bytes := encodeP (Asset.toPrimitive a)

/-- Binary encoding of a MultiAsset. -/
def MultiAsset.toCbor (m : MultiAsset) : Bytes := encodeP (MultiAsset.toPrimitive m)

/-- Binary encoding of a Value. -/
def Value.toCbor (v : Value) : Bytes := encodeP (Value.toPrimitive v)

/-- Binary decoding of an Asset. -/
def Asset.fromCbor : Bytes → Except DeserializeError Asset :=
  fromCborWith Asset.fromPrimitive

/-- Binary decoding of a MultiAsset. -/
def MultiAsset.fromCbor : Bytes → Except DeserializeError MultiAsset :=
  fromCborWith MultiAsset.fromPrimitive

/-- Binary decoding of a Value. -/
def Value.fromCbor : Bytes → Except DeserializeError Value :=
  fromCborWith Value.fromPrimitive

/-- Binary decoding of a transaction input. -/
def TransactionInput.fromCbor : Bytes → Except DeserializeError TransactionInput :=
  fromCborWith TransactionInput.fromPrimitive

/-- Binary decoding of a transaction output. -/
def TransactionOutput.fromCbor : Bytes → Except DeserializeError TransactionOutput :=
  fromCborWith TransactionOutput.fromPrimitive

/-- Binary decoding of a transaction body. -/
def TransactionBody.fromCbor : Bytes → Except DeserializeError TransactionBody :=
  fromCborWith TransactionBody.fromPrimitive

/-- Binary decoding of a transaction. -/
def Transaction.fromCbor : Bytes → Except DeserializeError Transaction :=
  fromCborWith Transaction.fromPrimitive

/-! ## Hashing and signing engine

Modelled from the spec: the signing engine is absent from the sources; the
spec requires a deterministic signature over the body hash and the fixtures
pin the scheme down to the standard one of the target ledger, a 256-bit
blake2b body digest signed with deterministic ed25519.  The two hash
functions and the curve arithmetic below follow the published algorithms. -/

/-- Bitwise right rotation inside a 64-bit word. -/
def rotr64 (x n : Nat) : Nat :=
  ((x >>> n) ||| (x <<< (64 - n))) &&& (2 ^ 64 - 1)

/-- Little-endian byte expansion of a natural in exactly k bytes. -/
def leBytes : Nat → Nat → Bytes
  | 0, _ => []
  | k + 1, n => n % 256 :: leBytes k (n / 256)

/-- Natural denoted by a little-endian byte string. -/
def fromLE (bs : Bytes) : Nat := bs.foldr (fun b acc => b + 256 * acc) 0

/-- Split a byte string into big-endian 64-bit words, eight bytes each. -/
def chunkWordsBE : Nat → Bytes → List Nat
  | 0, _ => []
  | _ + 1, [] => []
  | f + 1, bs => fromBE (bs.take 8) :: chunkWordsBE f (bs.drop 8)

/-- Split a byte string into little-endian 64-bit words, eight bytes each. -/
def chunkWordsLE : Nat → Bytes → List Nat
  | 0, _ => []
  | _ + 1, [] => []
  | f + 1, bs => fromLE (bs.take 8) :: chunkWordsLE f (bs.drop 8)

/-- Split a byte string into 128-byte blocks. -/
def chunk128 : Nat → Bytes → List Bytes
  | 0, _ => []
  | _ + 1, [] => []
  | f + 1, bs => bs.take 128 :: chunk128 f (bs.drop 128)

/-- The eighty round constants of sha512. -/
def sha512K : List Nat :=
  [4794697086780616226, 8158064640168781261, 13096744586834688815, 16840607885511220156,
   4131703408338449720, 6480981068601479193, 10538285296894168987, 12329834152419229976,
   15566598209576043074, 1334009975649890238, 2608012711638119052, 6128411473006802146,
   8268148722764581231, 9286055187155687089, 11230858885718282805, 13951009754708518548,
   16472876342353939154, 17275323862435702243, 1135362057144423861, 2597628984639134821,
   3308224258029322869, 5365058923640841347, 6679025012923562964, 8573033837759648693,
   10970295158949994411, 12119686244451234320, 12683024718118986047, 13788192230050041572,
   14330467153632333762, 15395433587784984357, 489312712824947311, 1452737877330783856,
   2861767655752347644, 3322285676063803686, 5560940570517711597, 5996557281743188959,
   7280758554555802590, 8532644243296465576, 9350256976987008742, 10552545826968843579,
   11727347734174303076, 12113106623233404929, 14000437183269869457, 14369950271660146224,
   15101387698204529176, 15463397548674623760, 17586052441742319658, 1182934255886127544,
   1847814050463011016, 2177327727835720531, 2830643537854262169, 3796741975233480872,
   4115178125766777443, 5681478168544905931, 6601373596472566643, 7507060721942968483,
   8399075790359081724, 8693463985226723168, 9568029438360202098, 10144078919501101548,
   10430055236837252648, 11840083180663258601, 13761210420658862357, 14299343276471374635,
   14566680578165727644, 15097957966210449927, 16922976911328602910, 17689382322260857208,
   500013540394364858, 748580250866718886, 1242879168328830382, 1977374033974150939,
   2944078676154940804, 3659926193048069267, 4368137639120453308, 4836135668995329356,
   5532061633213252278, 6448918945643986474, 6902733635092675308, 7801388544844847127]

/-- The initial state words of sha512, shared by blake2b as its IV. -/
def sha512H0 : List Nat :=
  [7640891576956012808, 13503953896175478587, 4354685564936845355, 11912009170470909681, 5840696475078001361, 11170449401992604703, 2270897969802886507, 6620516959819538809]

/-- The twelve message-permutation rows of blake2b. -/
def blakeSigma : List (List Nat) :=
  [[0, 1, 2, 3, 4, 5, 6, 7, 8, 9, 10, 11, 12, 13, 14, 15],
   [14, 10, 4, 8, 9, 15, 13, 6, 1, 12, 0, 2, 11, 7, 5, 3],
   [11, 8, 12, 0, 5, 2, 15, 13, 10, 14, 3, 6, 7, 1, 9, 4],
   [7, 9, 3, 1, 13, 12, 11, 14, 2, 6, 5, 10, 4, 0, 15, 8],
   [9, 0, 5, 7, 2, 4, 10, 15, 14, 1, 11, 12, 6, 8, 3, 13],
   [2, 12, 6, 10, 0, 11, 8, 3, 4, 13, 7, 5, 15, 14, 1, 9],
   [12, 5, 1, 15, 14, 13, 4, 10, 0, 7, 6, 3, 9, 2, 8, 11],
   [13, 11, 7, 14, 12, 1, 3, 9, 5, 0, 15, 4, 8, 6, 2, 10],
   [6, 15, 14, 9, 11, 3, 0, 8, 12, 2, 13, 7, 1, 4, 10, 5],
   [10, 2, 8, 4, 7, 6, 1, 5, 15, 11, 9, 14, 3, 12, 13, 0],
   [0, 1, 2, 3, 4, 5, 6, 7, 8, 9, 10, 11, 12, 13, 14, 15],
   [14, 10, 4, 8, 9, 15, 13, 6, 1, 12, 0, 2, 11, 7, 5, 3]]

/-- Padding of sha512: a one bit, zeros to 112 modulo 128, then the bit
length in sixteen big-endian bytes. -/
def sha512Pad (m : Bytes) : Bytes :=
  m ++ 128 :: List.replicate ((239 - m.length % 128) % 128) 0 ++ beBytes 16 (8 * m.length)

/-- Message-schedule extension of sha512, appending one word per step. -/
def sha512Ext : Nat → List Nat → List Nat
  | 0, w => w
  | f + 1, w =>
    let n := w.length
    let w15 := w.getD (n - 15) 0
    let w2 := w.getD (n - 2) 0
    let s0 := rotr64 w15 1 ^^^ rotr64 w15 8 ^^^ (w15 >>> 7)
    let s1 := rotr64 w2 19 ^^^ rotr64 w2 61 ^^^ (w2 >>> 6)
    sha512Ext f (w ++ [(w.getD (n - 16) 0 + s0 + w.getD (n - 7) 0 + s1) &&& (2 ^ 64 - 1)])

/-- One compression round of sha512 over the eight-word working state. -/
def sha512Round (st : List Nat) (kw : Nat × Nat) : List Nat :=
  let a := st.getD 0 0
  let b := st.getD 1 0
  let c := st.getD 2 0
  let d := st.getD 3 0
  let e := st.getD 4 0
  let f := st.getD 5 0
  let g := st.getD 6 0
  let h := st.getD 7 0
  let s1 := rotr64 e 14 ^^^ rotr64 e 18 ^^^ rotr64 e 41
  let ch := (e &&& f) ^^^ ((e ^^^ (2 ^ 64 - 1)) &&& g)
  let t1 := (h + s1 + ch + kw.1 + kw.2) &&& (2 ^ 64 - 1)
  let s0 := rotr64 a 28 ^^^ rotr64 a 34 ^^^ rotr64 a 39
  let maj := (a &&& b) ^^^ (a &&& c) ^^^ (b &&& c)
  let t2 := (s0 + maj) &&& (2 ^ 64 - 1)
  [(t1 + t2) &&& (2 ^ 64 - 1), a, b, c, (d + t1) &&& (2 ^ 64 - 1), e, f, g]

/-- Process one 128-byte block of sha512. -/
def sha512Block (hs : List Nat) (blk : Bytes) : List Nat :=
  let w := sha512Ext 64 (chunkWordsBE 128 blk)
  let st := (sha512K.zip w).foldl sha512Round hs
  (hs.zip st).map (fun p => (p.1 + p.2) &&& (2 ^ 64 - 1))

/-- The sha512 digest of a byte string. -/
def sha512 (m : Bytes) : Bytes :=
  let pd := sha512Pad m
  (((chunk128 pd.length pd).foldl sha512Block sha512H0).map (beBytes 8)).flatten

/-- The quarter-round mixing function of blake2b over the sixteen-word
working vector. -/
def bMix (v : List Nat) (a b c d x y : Nat) : List Nat :=
  let va := (v.getD a 0 + v.getD b 0 + x) &&& (2 ^ 64 - 1)
  let vd := rotr64 (v.getD d 0 ^^^ va) 32
  let vc := (v.getD c 0 + vd) &&& (2 ^ 64 - 1)
  let vb := rotr64 (v.getD b 0 ^^^ vc) 24
  let va2 := (va + vb + y) &&& (2 ^ 64 - 1)
  let vd2 := rotr64 (vd ^^^ va2) 16
  let vc2 := (vc + vd2) &&& (2 ^ 64 - 1)
  let vb2 := rotr64 (vb ^^^ vc2) 63
  (((v.set a va2).set b vb2).set c vc2).set d vd2

/-- One round of blake2b under a permutation row. -/
def blakeRound (m : List Nat) (v : List Nat) (s : List Nat) : List Nat :=
  let mi := fun i => m.getD (s.getD i 0) 0
  let v := bMix v 0 4 8 12 (mi 0) (mi 1)
  let v := bMix v 1 5 9 13 (mi 2) (mi 3)
  let v := bMix v 2 6 10 14 (mi 4) (mi 5)
  let v := bMix v 3 7 11 15 (mi 6) (mi 7)
  let v := bMix v 0 5 10 15 (mi 8) (mi 9)
  let v := bMix v 1 6 11 12 (mi 10) (mi 11)
  let v := bMix v 2 7 8 13 (mi 12) (mi 13)
  bMix v 3 4 9 14 (mi 14) (mi 15)

/-- The compression function of blake2b: twelve rounds over the state, the
message block, the byte counter and the final-block flag. -/
def blakeCompress (h : List Nat) (m : List Nat) (t : Nat) (last : Bool) : List Nat :=
  let v := h ++ sha512H0
  let v := v.set 12 (v.getD 12 0 ^^^ (t &&& (2 ^ 64 - 1)))
  let v := if last then v.set 14 (v.getD 14 0 ^^^ (2 ^ 64 - 1)) else v
  let v := blakeSigma.foldl (fun v s => blakeRound m v s) v
  (List.range 8).map (fun i => h.getD i 0 ^^^ v.getD i 0 ^^^ v.getD (i + 8) 0)

/-- Process the zero-padded blocks of blake2b, tracking the byte counter; the
final block carries the unpadded length and the final flag. -/
def blakeBlocks : List Bytes → List Nat → Nat → Nat → List Nat
  | [], h, _, _ => h
  | [b], h, t, ll => blakeCompress h (chunkWordsLE 128 b) (t + ll) true
  | b :: bs, h, t, ll => blakeBlocks bs (blakeCompress h (chunkWordsLE 128 b) (t + 128) false) (t + 128) ll

/-- The 256-bit unkeyed blake2b digest used as the transaction body hash. -/
def blake2b256 (m : Bytes) : Bytes :=
  let h := sha512H0.set 0 (sha512H0.getD 0 0 ^^^ 16842784)
  let blocks :=
    if m.length = 0 then [List.replicate 128 0]
    else
      let padded := m ++ List.replicate ((128 - m.length % 128) % 128) 0
      chunk128 padded.length padded
  let ll := if m.length = 0 then 0 else (m.length - 1) % 128 + 1
  ((blakeBlocks blocks h 0 ll).map (leBytes 8)).flatten.take 32

/-- Modelled from the spec: the body hash is the 256-bit digest of the
canonical body bytes, a pure function of the body contents. -/
def TransactionBody.bodyHash (x : TransactionBody) : Bytes :=
  blake2b256 (TransactionBody.toCbor x)

/-- The field prime of the edwards curve. -/
def pEd : Nat := 2 ^ 255 - 19

/-- The group order of the edwards curve base point. -/
def lEd : Nat := 2 ^ 252 + 27742317777372353535851937790883648493

/-- The curve constant d of the edwards curve. -/
def dEd : Nat := 37095705934669439343138083508754565189542113879843219016388785533085940283555

/-- A curve point in extended homogeneous coordinates. -/
abbrev EdPt := Nat × Nat × Nat × Nat

/-- The x coordinate of the base point. -/
def bEdX : Nat := 15112221349535400772501151409588531511454012693041857206046113283949847762202

/-- The y coordinate of the base point. -/
def bEdY : Nat := 46316835694926478169428394003475163141307993866256225615783033603165251855960

/-- The base point in extended coordinates. -/
def bEd : EdPt := (bEdX, bEdY, 1, bEdX * bEdY % pEd)

/-- Unified addition on the extended coordinates of the curve. -/
def edAdd (pt qt : EdPt) : EdPt :=
  let (x1, y1, z1, t1) := pt
  let (x2, y2, z2, t2) := qt
  let a := (y1 + pEd - x1) * (y2 + pEd - x2) % pEd
  let b := (y1 + x1) * (y2 + x2) % pEd
  let c := 2 * dEd * t1 % pEd * t2 % pEd
  let dd := 2 * z1 * z2 % pEd
  let e := (b + pEd - a) % pEd
  let f := (dd + pEd - c) % pEd
  let g := (dd + c) % pEd
  let h := (b + a) % pEd
  (e * f % pEd, g * h % pEd, f * g % pEd, e * h % pEd)

/-- Binary double-and-add scalar multiplication, fuel indexed. -/
def edMul : Nat → Nat → EdPt → EdPt → EdPt
  | 0, _, _, acc => acc
  | f + 1, s, pt, acc =>
    if s = 0 then acc
    else edMul f (s / 2) (edAdd pt pt) (if s % 2 = 1 then edAdd acc pt else acc)

/-- Scalar multiple of a curve point. -/
def edScalarMul (s : Nat) (pt : EdPt) : EdPt := edMul 256 s pt (0, 1, 1, 0)

/-- Binary modular exponentiation, fuel indexed. -/
def powModAux : Nat → Nat → Nat → Nat → Nat
  | 0, _, _, _ => 1
  | f + 1, b, e, m =>
    if e = 0 then 1
    else
      let r := powModAux f (b * b % m) (e / 2) m
      if e % 2 = 1 then r * b % m else r

/-- Modular exponentiation with fuel covering any 300-bit exponent. -/
def powMod (b e m : Nat) : Nat := powModAux 300 b e m

/-- Compressed encoding of a curve point: the affine y with the parity of
the affine x in the top bit, in thirty-two little-endian bytes. -/
def edEncode (pt : EdPt) : Bytes :=
  let (x, y, z, _) := pt
  let zi := powMod z (pEd - 2) pEd
  let xa := x * zi % pEd
  let ya := y * zi % pEd
  leBytes 32 (ya + xa % 2 * 2 ^ 255)

/-- Modelled from the spec: the deterministic signature of a message under a
signing-key seed, per the standard deterministic scheme: the secret scalar
and nonce pseudorandom input derive from the seed digest, the nonce from the
digest of the pseudorandom half and the message, and the response scalar
binds the encoded nonce point, the public key and the message. -/
def ed25519Sign (seed msg : Bytes) : Bytes :=
  let h := sha512 seed
  let a := Nat.lor (Nat.land (fromLE (h.take 32)) (2 ^ 254 - 8)) (2 ^ 254)
  let pref := h.drop 32
  let pubA := edEncode (edScalarMul a bEd)
  let r := fromLE (sha512 (pref ++ msg)) % lEd
  let ptR := edEncode (edScalarMul r bEd)
  let k := fromLE (sha512 (ptR ++ pubA ++ msg)) % lEd
  ptR ++ leBytes 32 ((r + k * a) % lEd)

/-! ## Detached message signing -/

/-- Modelled from the spec: the envelope binding a payload, a representation
of the public key and a signature over a canonical encoding of the payload
and the key metadata. -/
structure SignedEnvelope where
  payload : Bytes
  keyBytes : Bytes
  signature : Bytes
deriving DecidableEq

/-- Modelled from the spec: the canonical encoding of the key metadata and
the payload that is signed; the signature scheme is taken ideal, the
signature being the canonical encoding itself, recomputed and compared on
verification. -/
def envelopeSig (keyBytes payload : Bytes) : Bytes :=
  encodeP (.parr [.pbytes keyBytes, .pbytes payload])

/-- Modelled from the spec: building an envelope signs the canonical encoding
of the payload and the key metadata. -/
def buildEnvelope (payload keyBytes : Bytes) : SignedEnvelope :=
  { payload := payload, keyBytes := keyBytes,
    signature := envelopeSig keyBytes payload }

/-- Modelled from the spec: the result of verification, the flag and the
embedded message; failure is reported in the flag, never raised. -/
structure VerifyResult where
  verified : Bool
  message : Bytes
deriving DecidableEq

/-- Modelled from the spec: verification recomputes the canonical encoding
from the embedded key and payload, checks the signature against it, and
returns the payload with the outcome flag, raising nothing. -/
def verifyEnvelope (e : SignedEnvelope) : VerifyResult :=
  { verified := decide (e.signature = envelopeSig e.keyBytes e.payload),
    message := e.payload }

/-- Tampering of an envelope payload: the byte at the given position is
replaced by the given value. -/
def tamperPayload (e : SignedEnvelope) (i : Nat) (v : Nat) : SignedEnvelope :=
  { e with payload := e.payload.set i v }

/-! ## Well-formedness of dictionaries and concrete instances for the
claims -/

/-- The dictionary invariant of a MultiAsset: unique policy keys and unique
token names inside every Asset. -/
def MAWF (m : MultiAsset) : Prop :=
  (akeys m).Nodup ∧ ∀ kv ∈ m, (akeys kv.2).Nodup

instance instDecMAWF (m : MultiAsset) : Decidable (MAWF m) := by
  unfold MAWF
  infer_instance

/-- The first fixed policy of the subtraction test, twenty-eight bytes of
the digit one. -/
def policy1Fx : Bytes := List.replicate 28 49

/-- The second fixed policy of the subtraction test, twenty-eight bytes of
the digit two. -/
def policy2Fx : Bytes := List.replicate 28 50

/-- The name Token1 as bytes. -/
def token1Fx : Bytes := [84, 111, 107, 101, 110, 49]

/-- The name Token2 as bytes. -/
def token2Fx : Bytes := [84, 111, 107, 101, 110, 50]

/-- The one-policy MultiAsset of the subtraction test. -/
def maSmallFx : MultiAsset := [(policy1Fx, [(token1Fx, 1), (token2Fx, 2)])]

/-- The two-policy MultiAsset of the subtraction test. -/
def maBigFx : MultiAsset :=
  [(policy1Fx, [(token1Fx, 10), (token2Fx, 20)]),
   (policy2Fx, [(token1Fx, 1), (token2Fx, 2)])]

/-- The difference the subtraction test expects from the succeeding
direction. -/
def maBigMinusSmallFx : MultiAsset :=
  [(policy1Fx, [(token1Fx, 9), (token2Fx, 18)]),
   (policy2Fx, [(token1Fx, 1), (token2Fx, 2)])]

/-- A MultiAsset holding a negative quantity, the edge on which the ordered
subtraction round trip fails. -/
def maNegFx : MultiAsset := [([1], [([7], -1)])]

/-- A MultiAsset whose one policy maps to an empty Asset. -/
def maEmptyInner1 : MultiAsset := [([1], [])]

/-- A second empty-Asset MultiAsset at a disjoint policy. -/
def maEmptyInner2 : MultiAsset := [([2], [])]

/-- A small concrete Asset for witnesses. -/
def assetW : Asset := [([1], 2)]

/-- A second small concrete Asset at a disjoint key for witnesses. -/
def assetW2 : Asset := [([2], 7)]

/-- A small concrete MultiAsset for witnesses. -/
def maW : MultiAsset := [([1], [([2], 3)])]

/-- A small concrete Value for witnesses. -/
def valueW : Value := { coin := 5, multiAsset := maW }

/-- A concrete transaction for witnesses, the fixed body under one witness. -/
def txW : Transaction :=
  { transaction_body := bodyFixture
    transaction_witness_set := { vkey_witnesses := some [{ vkey := [3], signature := [4] }] } }

/-- A concrete payload for the envelope witness. -/
def envPayloadFx : Bytes := [1, 2, 3]

/-- A concrete key for the envelope witness. -/
def envKeyFx : Bytes := [9]

/-! ## Lemmas on association-list dictionaries -/

/-- A lookup that hits in the front part survives appending. -/
theorem alookup_append_some {xs ys : List (Bytes × α)} {k : Bytes} {v : α}
    (h : alookup k xs = some v) : alookup k (xs ++ ys) = some v := by
  induction xs with
  | nil => simp [alookup] at h
  | cons kv rest ih =>
    by_cases hk : k = kv.1
    · simpa [alookup, hk] using by simpa [alookup, hk] using h
    · simp only [alookup, hk, if_neg, List.cons_append] at h ⊢
      simp [hk]
      exact ih (by simpa [alookup, hk] using h)

/-- A lookup that misses the front part falls through to the back part. -/
theorem alookup_append_none {xs ys : List (Bytes × α)} {k : Bytes}
    (h : alookup k xs = none) : alookup k (xs ++ ys) = alookup k ys := by
  induction xs with
  | nil => simp [alookup]
  | cons kv rest ih =>
    by_cases hk : k = kv.1
    · simp [alookup, hk] at h
    · simp only [alookup, hk, if_neg, List.cons_append] at h ⊢
      simp [hk]
      exact ih (by simpa [alookup, hk] using h)

/-- Lookup through a key-preserving value map. -/
theorem alookup_map_keyfun {l : List (Bytes × α)} {k : Bytes} (f : Bytes → α → β) :
    alookup k (l.map (fun kv => (kv.1, f kv.1 kv.2))) = (alookup k l).map (f k) := by
  induction l with
  | nil => simp [alookup]
  | cons kv rest ih =>
    by_cases hk : k = kv.1
    · subst hk
      simp [alookup]
    · simp [alookup, hk, ih]

/-- Lookup through a filter whose predicate only inspects keys. -/
theorem alookup_filter_keypred {l : List (Bytes × α)} {k : Bytes} (p : Bytes → Bool) :
    alookup k (l.filter (fun kv => p kv.1)) = if p k then alookup k l else none := by
  induction l with
  | nil => simp [alookup]
  | cons kv rest ih =>
    rw [List.filter_cons]
    by_cases hk : k = kv.1
    · subst hk
      by_cases hp : p kv.1
      · simp [hp, alookup]
      · simp only [hp, Bool.false_eq_true, if_false] at ih ⊢
        exact ih
    · by_cases hp : p kv.1
      · simp [hp, alookup, hk, ih]
      · simp only [hp, Bool.false_eq_true, if_false] at ih ⊢
        rw [ih]
        by_cases hpk : p k
        · simp [hpk, alookup, hk]
        · simp [hpk]


/-- A successful lookup exhibits a member. -/
theorem alookup_mem {l : List (Bytes × α)} {k : Bytes} {v : α}
    (h : alookup k l = some v) : (k, v) ∈ l := by
  induction l with
  | nil => simp [alookup] at h
  | cons kv rest ih =>
    by_cases hk : k = kv.1
    · subst hk
      simp [alookup] at h
      simp [← h]
    · simp [alookup, hk] at h
      exact List.mem_cons_of_mem _ (ih h)

/-- Under unique keys, membership determines the lookup. -/
theorem mem_alookup {l : List (Bytes × α)} {k : Bytes} {v : α}
    (hm : (k, v) ∈ l) (hnd : (akeys l).Nodup) : alookup k l = some v := by
  induction l with
  | nil => simp at hm
  | cons kv rest ih =>
    simp only [akeys, List.map_cons, List.nodup_cons] at hnd
    rcases List.mem_cons.mp hm with h | h
    · rw [← h]
      simp [alookup]
    · have hk : k ≠ kv.1 := by
        intro he
        exact hnd.1 (List.mem_map.mpr ⟨(k, v), h, he⟩)
      have hstep : alookup k (kv :: rest) = alookup k rest := by
        simp [alookup, hk]
      rw [hstep]
      exact ih h hnd.2

/-- A lookup misses exactly when the key is absent. -/
theorem alookup_none_iff {l : List (Bytes × α)} {k : Bytes} :
    alookup k l = none ↔ k ∉ akeys l := by
  induction l with
  | nil => simp [alookup, akeys]
  | cons kv rest ih =>
    by_cases hk : k = kv.1
    · subst hk
      simp [alookup, akeys]
    · simp only [alookup, if_neg hk, akeys, List.map_cons, List.mem_cons]
      rw [ih]
      simp [akeys, hk]

/-- A lookup hits exactly when the key is present. -/
theorem alookup_isSome_iff {l : List (Bytes × α)} {k : Bytes} :
    (alookup k l).isSome ↔ k ∈ akeys l := by
  rcases h : alookup k l with _ | v
  · simpa using alookup_none_iff.mp h
  · simp only [Option.isSome_some, true_iff]
    by_contra hk
    have hnone := alookup_none_iff.mpr hk
    rw [h] at hnone
    cases hnone

/-- Keys survive a key-preserving value map. -/
theorem akeys_map_keyfun (l : List (Bytes × α)) (f : Bytes → α → β) :
    akeys (l.map (fun kv => (kv.1, f kv.1 kv.2))) = akeys l := by
  simp [akeys, List.map_map]

/-- Keys distribute over append. -/
theorem akeys_append (xs ys : List (Bytes × α)) :
    akeys (xs ++ ys) = akeys xs ++ akeys ys := by
  simp [akeys]

/-- The merge shape shared by the additive operations keeps keys unique. -/
theorem nodup_merge_keys {l r : List (Bytes × α)} (g : Bytes → α → α)
    (hl : (akeys l).Nodup) (hr : (akeys r).Nodup) :
    (akeys (l.map (fun kv => (kv.1, g kv.1 kv.2))
      ++ r.filter (fun kv => (alookup kv.1 l).isNone))).Nodup := by
  rw [akeys_append, akeys_map_keyfun]
  rw [List.nodup_append]
  refine ⟨hl, ?_, ?_⟩
  · exact (List.Sublist.map Prod.fst (List.filter_sublist r)).nodup hr
  · intro k hkl hkr
    simp only [akeys, List.mem_map] at hkr
    rcases hkr with ⟨kv, hkv, hfst⟩
    have hpred := (List.mem_filter.mp hkv).2
    rw [hfst] at hpred
    rw [Option.isNone_iff_eq_none] at hpred
    exact alookup_none_iff.mp hpred hkl

/-- Lookup characterization of Asset addition. -/
theorem alookup_asset_add (a b : Asset) (k : Bytes) :
    alookup k (Asset.add a b) =
      match alookup k a with
      | some v => some (v + (alookup k b).getD 0)
      | none => alookup k b := by
  unfold Asset.add
  rcases ha : alookup k a with _ | v
  · have h1 : alookup k (a.map (fun kv => (kv.1, kv.2 + ((alookup kv.1 b).getD 0)))) = none := by
      rw [alookup_map_keyfun (fun key val => val + ((alookup key b).getD 0))]
      simp [ha]
    rw [alookup_append_none h1, alookup_filter_keypred (fun key => (alookup key a).isNone)]
    simp [ha]
  · have h1 : alookup k (a.map (fun kv => (kv.1, kv.2 + ((alookup kv.1 b).getD 0))))
        = some (v + ((alookup k b).getD 0)) := by
      rw [alookup_map_keyfun (fun key val => val + ((alookup key b).getD 0))]
      simp [ha]
    rw [alookup_append_some h1]

/-- Lookup characterization of the raw Asset difference. -/
theorem alookup_asset_rawSub (a b : Asset) (k : Bytes) :
    alookup k (Asset.rawSub a b) =
      match alookup k a with
      | some v => some (v - (alookup k b).getD 0)
      | none => (alookup k b).map (fun w => -w) := by
  unfold Asset.rawSub
  rcases ha : alookup k a with _ | v
  · have h1 : alookup k (a.map (fun kv => (kv.1, kv.2 - ((alookup kv.1 b).getD 0)))) = none := by
      rw [alookup_map_keyfun (fun key val => val - ((alookup key b).getD 0))]
      simp [ha]
    rw [alookup_append_none h1]
    have h2 := alookup_map_keyfun (l := b.filter (fun kv => (alookup kv.1 a).isNone))
      (k := k) (fun key val => -val)
    simp only at h2
    rw [h2, alookup_filter_keypred (fun key => (alookup key a).isNone)]
    simp [ha]
  · have h1 : alookup k (a.map (fun kv => (kv.1, kv.2 - ((alookup kv.1 b).getD 0))))
        = some (v - ((alookup k b).getD 0)) := by
      rw [alookup_map_keyfun (fun key val => val - ((alookup key b).getD 0))]
      simp [ha]
    rw [alookup_append_some h1]

/-- Lookup characterization of MultiAsset addition. -/
theorem alookup_ma_add (a b : MultiAsset) (k : Bytes) :
    alookup k (MultiAsset.add a b) =
      match alookup k a with
      | some v => some (Asset.add v ((alookup k b).getD []))
      | none => alookup k b := by
  unfold MultiAsset.add
  rcases ha : alookup k a with _ | v
  · have h1 : alookup k (a.map (fun kv => (kv.1, Asset.add kv.2 ((alookup kv.1 b).getD [])))) = none := by
      rw [alookup_map_keyfun (fun key val => Asset.add val ((alookup key b).getD []))]
      simp [ha]
    rw [alookup_append_none h1, alookup_filter_keypred (fun key => (alookup key a).isNone)]
    simp [ha]
  · have h1 : alookup k (a.map (fun kv => (kv.1, Asset.add kv.2 ((alookup kv.1 b).getD []))))
        = some (Asset.add v ((alookup k b).getD [])) := by
      rw [alookup_map_keyfun (fun key val => Asset.add val ((alookup key b).getD []))]
      simp [ha]
    rw [alookup_append_some h1]

/-- Appending key-disjoint dictionaries keeps keys unique. -/
theorem nodup_keys_append {l m : List (Bytes × α)}
    (hl : (akeys l).Nodup) (hm : (akeys m).Nodup)
    (hd : ∀ k, k ∈ akeys m → k ∉ akeys l) : (akeys (l ++ m)).Nodup := by
  rw [akeys_append, List.nodup_append]
  exact ⟨hl, hm, fun k hkl hkm => hd k hkm hkl⟩

/-- Filtering a dictionary keeps keys unique. -/
theorem nodup_keys_filter {m : List (Bytes × α)} (p : Bytes × α → Bool)
    (hm : (akeys m).Nodup) : (akeys (m.filter p)).Nodup :=
  (List.Sublist.map Prod.fst (List.filter_sublist m)).nodup hm

/-- A key kept by the missing-from-the-other-side filter misses there. -/
theorem mem_keys_filterNone {a : List (Bytes × α)} {b : List (Bytes × β)} {k : Bytes}
    (h : k ∈ akeys (b.filter (fun kv => (alookup kv.1 a).isNone))) :
    alookup k a = none := by
  simp only [akeys, List.mem_map] at h
  rcases h with ⟨kv, hkv, hfst⟩
  have hpred := (List.mem_filter.mp hkv).2
  rw [hfst] at hpred
  exact Option.isNone_iff_eq_none.mp hpred

/-- The raw Asset difference keeps keys unique. -/
theorem nodup_rawSub_keys {a b : Asset}
    (ha : (akeys a).Nodup) (hb : (akeys b).Nodup) :
    (akeys (Asset.rawSub a b)).Nodup := by
  unfold Asset.rawSub
  apply nodup_keys_append
  · rw [akeys_map_keyfun a (fun key val => val - ((alookup key b).getD 0))]
    exact ha
  · rw [akeys_map_keyfun _ (fun key val => -val)]
    exact nodup_keys_filter _ hb
  · intro k hk
    rw [akeys_map_keyfun _ (fun key val => -val)] at hk
    rw [akeys_map_keyfun a (fun key val => val - ((alookup key b).getD 0))]
    exact alookup_none_iff.mp (mem_keys_filterNone hk)

/-- Asset addition keeps keys unique. -/
theorem nodup_asset_add_keys {a b : Asset}
    (ha : (akeys a).Nodup) (hb : (akeys b).Nodup) :
    (akeys (Asset.add a b)).Nodup := by
  unfold Asset.add
  apply nodup_keys_append
  · rw [akeys_map_keyfun a (fun key val => val + ((alookup key b).getD 0))]
    exact ha
  · exact nodup_keys_filter _ hb
  · intro k hk
    rw [akeys_map_keyfun a (fun key val => val + ((alookup key b).getD 0))]
    exact alookup_none_iff.mp (mem_keys_filterNone hk)

/-- Asset subtraction fails exactly when the raw difference has a negative
entry. -/
theorem asset_subtract_error_all {a b : Asset} :
    eIsErr (Asset.subtract a b) = true ↔
      (Asset.rawSub a b).all (fun kv => decide (0 ≤ kv.2)) = false := by
  unfold Asset.subtract
  split
  · rename_i h
    simp [eIsErr, h]
  · rename_i h
    simp only [eIsErr, true_iff]
    exact Bool.eq_false_iff.mpr h

/-- Asset subtraction returns exactly the checked raw difference. -/
theorem asset_subtract_ok_iff {a b c : Asset} :
    Asset.subtract a b = .ok c ↔
      ((Asset.rawSub a b).all (fun kv => decide (0 ≤ kv.2)) = true ∧ c = Asset.rawSub a b) := by
  unfold Asset.subtract
  split
  · rename_i h
    constructor
    · intro hok
      exact ⟨h, (Except.ok.injEq _ _).mp hok |>.symm⟩
    · intro hc
      rw [hc.2]
  · rename_i h
    constructor
    · intro hok
      cases hok
    · intro hc
      exact absurd hc.1 h

/-- Modelled subtraction of Assets raises exactly on a negative key-wise
difference. -/
theorem asset_subtract_error_iff {a b : Asset}
    (ha : (akeys a).Nodup) (hb : (akeys b).Nodup) :
    eIsErr (Asset.subtract a b) = true ↔
      ∃ k, (alookup k a).getD 0 - (alookup k b).getD 0 < 0 := by
  rw [asset_subtract_error_all, List.all_eq_false]
  constructor
  · rintro ⟨kv, hmem, hneg⟩
    rcases kv with ⟨k, v⟩
    have hlk := mem_alookup hmem (nodup_rawSub_keys ha hb)
    rw [alookup_asset_rawSub] at hlk
    refine ⟨k, ?_⟩
    simp only [decide_eq_true_eq, not_le] at hneg
    rcases hca : alookup k a with _ | va
    · rw [hca] at hlk
      simp only at hlk
      rcases hcb : alookup k b with _ | vb
      · rw [hcb] at hlk
        cases hlk
      · rw [hcb] at hlk
        simp only [Option.map] at hlk
        have : v = -vb := (Option.some.injEq _ _).mp hlk |>.symm
        subst this
        simp [hcb]
        omega
    · rw [hca] at hlk
      simp only at hlk
      have : v = va - (alookup k b).getD 0 := (Option.some.injEq _ _).mp hlk |>.symm
      subst this
      simp [hca]
      omega
  · rintro ⟨k, hneg⟩
    rcases hca : alookup k a with _ | va
    · rw [hca] at hneg
      simp only [Option.getD_none, zero_sub, neg_neg] at hneg
      rcases hcb : alookup k b with _ | vb
      · rw [hcb] at hneg
        simp at hneg
      · rw [hcb] at hneg
        simp only [Option.getD_some] at hneg
        have hlk : alookup k (Asset.rawSub a b) = some (-vb) := by
          rw [alookup_asset_rawSub, hca, hcb]
          simp
        refine ⟨(k, -vb), alookup_mem hlk, ?_⟩
        simp
        omega
    · rw [hca] at hneg
      simp only [Option.getD_some] at hneg
      have hlk : alookup k (Asset.rawSub a b) = some (va - (alookup k b).getD 0) := by
        rw [alookup_asset_rawSub, hca]
      refine ⟨(k, va - (alookup k b).getD 0), alookup_mem hlk, ?_⟩
      simp
      omega

/-- The Asset order is the pointwise domination of lookups on the left key
set. -/
theorem asset_le_iff {a b : Asset} (ha : (akeys a).Nodup) :
    Asset.le a b = true ↔
      ∀ k v, alookup k a = some v → ∃ w, alookup k b = some w ∧ v ≤ w := by
  unfold Asset.le
  rw [List.all_eq_true]
  constructor
  · intro h k v hk
    have hp := h (k, v) (alookup_mem hk)
    simp only at hp
    rcases hb : alookup k b with _ | w
    · rw [hb] at hp
      cases hp
    · rw [hb] at hp
      simp only [decide_eq_true_eq] at hp
      exact ⟨w, rfl, hp⟩
  · intro h kv hm
    rcases kv with ⟨k, v⟩
    rcases h k v (mem_alookup hm ha) with ⟨w, hw, hvw⟩
    simp only [hw, decide_eq_true_eq]
    exact hvw

/-- Asset dictionary equality is the pointwise equality of lookups. -/
theorem asset_eqB_iff {a b : Asset}
    (ha : (akeys a).Nodup) (hb : (akeys b).Nodup) :
    Asset.eqB a b = true ↔ ∀ k, alookup k a = alookup k b := by
  unfold Asset.eqB
  rw [Bool.and_eq_true, List.all_eq_true, List.all_eq_true]
  constructor
  · rintro ⟨h1, h2⟩ k
    rcases hka : alookup k a with _ | v
    · rcases hkb : alookup k b with _ | w
      · rfl
      · have hp := h2 (k, w) (alookup_mem hkb)
        simp only [decide_eq_true_eq] at hp
        rw [hka] at hp
        cases hp
    · have hp := h1 (k, v) (alookup_mem hka)
      simp only [decide_eq_true_eq] at hp
      rw [hp]
  · intro h
    constructor
    · intro kv hm
      rcases kv with ⟨k, v⟩
      simp only [decide_eq_true_eq]
      rw [← h k]
      exact mem_alookup hm ha
    · intro kv hm
      rcases kv with ⟨k, v⟩
      simp only [decide_eq_true_eq]
      rw [h k]
      exact mem_alookup hm hb

/-- Dominated ordered subtraction of Assets succeeds, restores on addition
and keeps keys unique, provided the minuend carries no negative quantity. -/
theorem asset_sub_ok_of_le {a b : Asset}
    (hnda : (akeys a).Nodup) (hndb : (akeys b).Nodup)
    (hab : Asset.le a b = true)
    (hbn : b.all (fun kv => decide (0 ≤ kv.2)) = true) :
    Asset.subtract b a = .ok (Asset.rawSub b a)
    ∧ (∀ k, alookup k (Asset.add (Asset.rawSub b a) a) = alookup k b)
    ∧ (akeys (Asset.rawSub b a)).Nodup := by
  have hle := (asset_le_iff hnda).mp hab
  have hbkeys : ∀ k v, alookup k a = some v → (alookup k b).isSome := by
    intro k v hk
    rcases hle k v hk with ⟨w, hw, _⟩
    rw [hw]
    rfl
  have hnonneg : ∀ k v, alookup k b = some v → 0 ≤ v := by
    intro k v hk
    have := List.all_eq_true.mp hbn (k, v) (alookup_mem hk)
    simpa using this
  have hall : (Asset.rawSub b a).all (fun kv => decide (0 ≤ kv.2)) = true := by
    rw [List.all_eq_true]
    intro kv hm
    rcases kv with ⟨k, r⟩
    have hlk := mem_alookup hm (nodup_rawSub_keys hndb hnda)
    rw [alookup_asset_rawSub] at hlk
    simp only [decide_eq_true_eq]
    rcases hkb : alookup k b with _ | v
    · rw [hkb] at hlk
      simp only at hlk
      rcases hka : alookup k a with _ | w
      · rw [hka] at hlk
        cases hlk
      · have := hbkeys k w hka
        rw [hkb] at this
        cases this
    · rw [hkb] at hlk
      simp only [Option.some.injEq] at hlk
      subst hlk
      rcases hka : alookup k a with _ | w
      · simp only [hka, Option.getD_none, sub_zero]
        exact hnonneg k v hkb
      · rcases hle k w hka with ⟨v2, hv2, hwv⟩
        rw [hkb] at hv2
        have hv2e : v = v2 := (Option.some.injEq _ _).mp hv2
        subst hv2e
        simp only [hka, Option.getD_some]
        omega
  refine ⟨?_, ?_, nodup_rawSub_keys hndb hnda⟩
  · exact asset_subtract_ok_iff.mpr ⟨hall, rfl⟩
  · intro k
    rw [alookup_asset_add, alookup_asset_rawSub]
    rcases hkb : alookup k b with _ | v
    · rcases hka : alookup k a with _ | w
      · simp
      · have := hbkeys k w hka
        rw [hkb] at this
        cases this
    · rcases hka : alookup k a with _ | w
      · simp [hka]
      · simp only [hka, Option.getD_some]
        congr 1
        omega

/-- Mapping over an Except keeps the error side. -/
theorem except_map_isErr {x : Except ε α} (f : α → β) :
    eIsErr (x.map f) = eIsErr x := by
  cases x <;> simp [Except.map, eIsErr]

/-- Mapping over an Except hits the ok side exactly of the ok source. -/
theorem except_map_ok {x : Except ε α} {f : α → β} {y : β} :
    x.map f = .ok y ↔ ∃ c, x = .ok c ∧ y = f c := by
  cases x with
  | error e => simp [Except.map]
  | ok c =>
    simp [Except.map]
    constructor
    · intro h
      exact h.symm
    · intro h
      exact h.symm

/-- The fallible map fails exactly when some element fails. -/
theorem exMap_error_iff {f : α → Except ε β} {l : List α} :
    eIsErr (exMap f l) = true ↔ ∃ x ∈ l, eIsErr (f x) = true := by
  induction l with
  | nil => simp [exMap, eIsErr]
  | cons x xs ih =>
    simp only [exMap]
    rcases hf : f x with e | y
    · simp only [hf, eIsErr, List.mem_cons]
      constructor
      · intro _
        refine ⟨x, Or.inl rfl, ?_⟩
        rw [hf]
      · intro _
        trivial
    · rcases hrest : exMap f xs with e | ys
      · simp only [hf, hrest, eIsErr, List.mem_cons]
        constructor
        · intro _
          have h2 : eIsErr (exMap f xs) = true := by
            rw [hrest]
            rfl
          rcases ih.mp h2 with ⟨z, hz, hez⟩
          exact ⟨z, Or.inr hz, hez⟩
        · intro _
          trivial
      · simp only [hf, hrest, eIsErr, List.mem_cons]
        constructor
        · intro h
          cases h
        · rintro ⟨z, hz, hez⟩
          rcases hz with rfl | hz2
          · rw [hf] at hez
            cases hez
          · have h2 : eIsErr (exMap f xs) = true := ih.mpr ⟨z, hz2, hez⟩
            rw [hrest] at h2
            cases h2

/-- The fallible pairwise map keeps the key column. -/
theorem exMap_pairs_keys {g : Bytes → α → Except ε β}
    {l : List (Bytes × α)} {ys : List (Bytes × β)}
    (h : exMap (fun kv => (g kv.1 kv.2).map (fun c => (kv.1, c))) l = .ok ys) :
    akeys ys = akeys l := by
  induction l generalizing ys with
  | nil =>
    simp only [exMap] at h
    have : ys = [] := ((Except.ok.injEq _ _).mp h).symm
    subst this
    rfl
  | cons kv rest ih =>
    simp only [exMap] at h
    rcases hg : (g kv.1 kv.2).map (fun c => (kv.1, c)) with e | y
    · rw [hg] at h
      cases h
    · rcases hrest : exMap (fun kv => (g kv.1 kv.2).map (fun c => (kv.1, c))) rest with e | ys2
      · rw [hg, hrest] at h
        cases h
      · rw [hg, hrest] at h
        have hys : ys = y :: ys2 := ((Except.ok.injEq _ _).mp h).symm
        subst hys
        rcases except_map_ok.mp hg with ⟨c, _, hyc⟩
        subst hyc
        simp [akeys, akeys] at ih ⊢
        exact ih hrest

/-- Lookup transport along the fallible pairwise map. -/
theorem exMap_pairs_lookup {g : Bytes → α → Except ε β}
    {l : List (Bytes × α)} {ys : List (Bytes × β)}
    (h : exMap (fun kv => (g kv.1 kv.2).map (fun c => (kv.1, c))) l = .ok ys) (k : Bytes) :
    (alookup k l = none → alookup k ys = none)
    ∧ (∀ v, alookup k l = some v → ∃ c, g k v = .ok c ∧ alookup k ys = some c) := by
  induction l generalizing ys with
  | nil =>
    simp only [exMap] at h
    have : ys = [] := ((Except.ok.injEq _ _).mp h).symm
    subst this
    exact ⟨fun _ => rfl, fun v hv => by cases hv⟩
  | cons kv rest ih =>
    simp only [exMap] at h
    rcases hg : (g kv.1 kv.2).map (fun c => (kv.1, c)) with e | y
    · rw [hg] at h
      cases h
    · rcases hrest : exMap (fun kv => (g kv.1 kv.2).map (fun c => (kv.1, c))) rest with e | ys2
      · rw [hg, hrest] at h
        cases h
      · rw [hg, hrest] at h
        have hys : ys = y :: ys2 := ((Except.ok.injEq _ _).mp h).symm
        subst hys
        rcases except_map_ok.mp hg with ⟨c, hc, hyc⟩
        subst hyc
        constructor
        · intro hnone
          by_cases hk : k = kv.1
          · rw [hk] at hnone
            simp [alookup] at hnone
          · simp only [alookup, if_neg hk] at hnone ⊢
            exact (ih hrest).1 hnone
        · intro v hv
          by_cases hk : k = kv.1
          · rw [hk] at hv ⊢
            simp only [alookup, if_pos rfl] at hv ⊢
            have : kv.2 = v := (Option.some.injEq _ _).mp hv
            subst this
            exact ⟨c, hc, rfl⟩
          · simp only [alookup, if_neg hk] at hv ⊢
            exact (ih hrest).2 v hv

/-- Value subtraction fails exactly on a negative coin or a failing
MultiAsset subtraction. -/
theorem value_sub_error_iff {v w : Value} :
    eIsErr (Value.sub v w) = true ↔
      (v.coin - w.coin < 0
        ∨ eIsErr (MultiAsset.subtract v.multiAsset w.multiAsset) = true) := by
  unfold Value.sub
  split
  · rename_i h
    simp [eIsErr, h]
  · rename_i h
    rcases hma : MultiAsset.subtract v.multiAsset w.multiAsset with e | m
    · simp [eIsErr, h]
    · simp [eIsErr, h]

/-- A successful Value subtraction is the coin difference over the MultiAsset
difference. -/
theorem value_sub_ok {v w u : Value} (h : Value.sub v w = .ok u) :
    u.coin = v.coin - w.coin
    ∧ MultiAsset.subtract v.multiAsset w.multiAsset = .ok u.multiAsset := by
  unfold Value.sub at h
  split at h
  · cases h
  · rcases hma : MultiAsset.subtract v.multiAsset w.multiAsset with e | m
    · rw [hma] at h
      cases h
    · rw [hma] at h
      have := (Except.ok.injEq _ _).mp h
      rw [← this]
      exact ⟨rfl, rfl⟩

/-- A non-failing Except is an ok. -/
theorem not_err_ok {x : Except ε α} (h : eIsErr x = false) : ∃ y, x = .ok y := by
  cases x with
  | error e => simp [eIsErr] at h
  | ok y => exact ⟨y, rfl⟩

/-- Inner assets reached through a lookup in a well-formed MultiAsset have
unique keys. -/
theorem mawf_lookup_nodup {m : MultiAsset} (hm : MAWF m) (p : Bytes) :
    (akeys ((alookup p m).getD [])).Nodup := by
  rcases h : alookup p m with _ | as
  · simp [akeys]
  · exact hm.2 (p, as) (alookup_mem h)

/-- The failure flag of MultiAsset subtraction is the disjunction of its two
fallible passes. -/
theorem ma_subtract_isErr (a b : MultiAsset) :
    eIsErr (MultiAsset.subtract a b) =
      (eIsErr (exMap (fun kv =>
          (Asset.subtract kv.2 ((alookup kv.1 b).getD [])).map (fun c => (kv.1, c))) a)
        || eIsErr (exMap (fun kv =>
          (Asset.subtract [] kv.2).map (fun c => (kv.1, c)))
            (b.filter (fun kv => (alookup kv.1 a).isNone)))) := by
  unfold MultiAsset.subtract
  rcases h1 : exMap (fun kv =>
      (Asset.subtract kv.2 ((alookup kv.1 b).getD [])).map (fun c => (kv.1, c))) a with e | xs
  · rw [h1]
    simp [eIsErr]
  · rcases h2 : exMap (fun kv =>
        (Asset.subtract [] kv.2).map (fun c => (kv.1, c)))
          (b.filter (fun kv => (alookup kv.1 a).isNone)) with e | ys
    · rw [h1, h2]
      simp [eIsErr]
    · rw [h1, h2]
      simp [eIsErr]

/-- Modelled MultiAsset subtraction raises exactly on a negative flattened
difference. -/
theorem ma_subtract_error_iff {a b : MultiAsset} (hwa : MAWF a) (hwb : MAWF b) :
    eIsErr (MultiAsset.subtract a b) = true ↔
      ∃ p n, maQty a p n - maQty b p n < 0 := by
  rw [ma_subtract_isErr, Bool.or_eq_true, exMap_error_iff, exMap_error_iff]
  constructor
  · rintro (⟨kv, hmem, herr⟩ | ⟨kv, hmem, herr⟩)
    · rcases kv with ⟨p, as⟩
      rw [except_map_isErr] at herr
      have hpa : alookup p a = some as := mem_alookup hmem hwa.1
      have hnd_as : (akeys as).Nodup := hwa.2 (p, as) hmem
      have hnd_bs : (akeys ((alookup p b).getD [])).Nodup := mawf_lookup_nodup hwb p
      rcases (asset_subtract_error_iff hnd_as hnd_bs).mp herr with ⟨n, hn⟩
      refine ⟨p, n, ?_⟩
      unfold maQty
      rw [hpa]
      simpa using hn
    · rcases kv with ⟨p, bs⟩
      rw [except_map_isErr] at herr
      have hmf := List.mem_filter.mp hmem
      have hpa : alookup p a = none := Option.isNone_iff_eq_none.mp hmf.2
      have hpb : alookup p b = some bs := mem_alookup hmf.1 hwb.1
      have hnd_bs : (akeys bs).Nodup := hwb.2 (p, bs) hmf.1
      rcases (asset_subtract_error_iff (by simp [akeys]) hnd_bs).mp herr with ⟨n, hn⟩
      refine ⟨p, n, ?_⟩
      unfold maQty
      rw [hpa, hpb]
      simpa [alookup] using hn
  · rintro ⟨p, n, hn⟩
    unfold maQty at hn
    rcases hpa : alookup p a with _ | as
    · rw [hpa] at hn
      right
      rcases hpb : alookup p b with _ | bs
      · rw [hpb] at hn
        simp [alookup] at hn
      · rw [hpb] at hn
        refine ⟨(p, bs), List.mem_filter.mpr ⟨alookup_mem hpb, by simp [hpa]⟩, ?_⟩
        rw [except_map_isErr]
        apply (asset_subtract_error_iff (by simp [akeys])
          (hwb.2 (p, bs) (alookup_mem hpb))).mpr
        exact ⟨n, by simpa [alookup] using hn⟩
    · rw [hpa] at hn
      left
      refine ⟨(p, as), alookup_mem hpa, ?_⟩
      rw [except_map_isErr]
      apply (asset_subtract_error_iff (hwa.2 (p, as) (alookup_mem hpa))
        (mawf_lookup_nodup hwb p)).mpr
      exact ⟨n, by simpa using hn⟩

/-- A successful MultiAsset subtraction splits into its two passes. -/
theorem ma_subtract_ok_parts {a b c : MultiAsset}
    (h : MultiAsset.subtract a b = .ok c) :
    ∃ xs ys,
      exMap (fun kv =>
        (Asset.subtract kv.2 ((alookup kv.1 b).getD [])).map (fun c => (kv.1, c))) a = .ok xs
      ∧ exMap (fun kv =>
          (Asset.subtract [] kv.2).map (fun c => (kv.1, c)))
            (b.filter (fun kv => (alookup kv.1 a).isNone)) = .ok ys
      ∧ c = xs ++ ys := by
  unfold MultiAsset.subtract at h
  rcases h1 : exMap (fun kv =>
      (Asset.subtract kv.2 ((alookup kv.1 b).getD [])).map (fun c => (kv.1, c))) a with e | xs
  · rw [h1] at h
    cases h
  · rcases h2 : exMap (fun kv =>
        (Asset.subtract [] kv.2).map (fun c => (kv.1, c)))
          (b.filter (fun kv => (alookup kv.1 a).isNone)) with e | ys
    · rw [h1, h2] at h
      cases h
    · rw [h1, h2] at h
      exact ⟨xs, ys, h1, h2, ((Except.ok.injEq _ _).mp h).symm⟩

/-- A successful MultiAsset subtraction computes the flattened key-wise
difference. -/
theorem ma_subtract_ok_qty {a b c : MultiAsset}
    (h : MultiAsset.subtract a b = .ok c) :
    ∀ p n, maQty c p n = maQty a p n - maQty b p n := by
  rcases ma_subtract_ok_parts h with ⟨xs, ys, h1, h2, hc⟩
  subst hc
  intro p n
  unfold maQty
  rcases hpa : alookup p a with _ | as
  · have hxs : alookup p xs = none := (exMap_pairs_lookup (g := fun q asq => Asset.subtract asq ((alookup q b).getD [])) h1 p).1 hpa
    rw [alookup_append_none hxs]
    rcases hpb : alookup p b with _ | bs
    · have hfb : alookup p (b.filter (fun kv => (alookup kv.1 a).isNone)) = none := by
        rw [alookup_filter_keypred (fun key => (alookup key a).isNone)]
        simp [hpb]
      have hys := (exMap_pairs_lookup (g := fun _ bsq => Asset.subtract [] bsq) h2 p).1 hfb
      rw [hys]
      simp [alookup]
    · have hfb : alookup p (b.filter (fun kv => (alookup kv.1 a).isNone)) = some bs := by
        rw [alookup_filter_keypred (fun key => (alookup key a).isNone)]
        simp [hpa, hpb]
      rcases (exMap_pairs_lookup (g := fun _ bsq => Asset.subtract [] bsq) h2 p).2 bs hfb with ⟨cb, hcb, hys⟩
      rw [hys]
      rcases asset_subtract_ok_iff.mp hcb with ⟨_, hcbe⟩
      subst hcbe
      simp only [Option.getD_some, Option.getD_none]
      rw [alookup_asset_rawSub]
      simp only [alookup]
      rcases hnb : alookup n bs with _ | w
      · simp
      · simp
  · rcases (exMap_pairs_lookup (g := fun q asq => Asset.subtract asq ((alookup q b).getD [])) h1 p).2 as hpa with ⟨ca, hca, hxs⟩
    rw [alookup_append_some hxs]
    rcases asset_subtract_ok_iff.mp hca with ⟨_, hcae⟩
    subst hcae
    simp only [Option.getD_some]
    rw [alookup_asset_rawSub]
    rcases hna : alookup n as with _ | v
    · simp only
      rcases hnb : alookup n ((alookup p b).getD []) with _ | w
      · simp
      · simp
    · simp

/-- Asset dictionary equality is symmetric. -/
theorem asset_eqB_comm (x y : Asset) : Asset.eqB x y = Asset.eqB y x := by
  unfold Asset.eqB
  rw [Bool.and_comm]

/-- MultiAsset dictionary equality from per-policy lookup agreement. -/
theorem ma_eqB_of_pointwise {x y : MultiAsset}
    (hx : (akeys x).Nodup) (hy : (akeys y).Nodup)
    (hn : ∀ p, (alookup p x = none ↔ alookup p y = none))
    (hs : ∀ p ax ay, alookup p x = some ax → alookup p y = some ay →
      Asset.eqB ax ay = true) :
    MultiAsset.eqB x y = true := by
  unfold MultiAsset.eqB
  rw [Bool.and_eq_true, List.all_eq_true, List.all_eq_true]
  constructor
  · intro kv hm
    rcases kv with ⟨p, ax⟩
    have hpx := mem_alookup hm hx
    rcases hpy : alookup p y with _ | ay
    · rw [(hn p).mpr hpy] at hpx
      cases hpx
    · simp only [hpy]
      exact hs p ax ay hpx hpy
  · intro kv hm
    rcases kv with ⟨p, ay⟩
    have hpy := mem_alookup hm hy
    rcases hpx : alookup p x with _ | ax
    · rw [(hn p).mp hpx] at hpy
      cases hpy
    · simp only [hpx]
      rw [asset_eqB_comm]
      exact hs p ax ay hpx hpy

/-- Ordered MultiAsset subtraction succeeds and addition restores the
minuend, under the dictionary invariants, a nonnegative minuend and
non-empty inner assets of the subtrahend. -/
theorem ma_sub_add_roundtrip {a b : MultiAsset}
    (hwa : MAWF a) (hwb : MAWF b)
    (hab : MultiAsset.le a b = true)
    (hbn : b.all (fun kv => kv.2.all (fun nv => decide (0 ≤ nv.2))) = true)
    (hane : a.all (fun kv => decide (kv.2 ≠ [])) = true) :
    ∃ c, MultiAsset.subtract b a = .ok c
      ∧ MultiAsset.eqB (MultiAsset.add c a) b = true := by
  have hle : ∀ kv ∈ a, Asset.le kv.2 ((alookup kv.1 b).getD []) = true := by
    intro kv hm
    have := List.all_eq_true.mp hab kv hm
    simpa using this
  have hmemb : ∀ p as, alookup p a = some as → ∃ bs, alookup p b = some bs := by
    intro p as hpa
    rcases hpb : alookup p b with _ | bs
    · exfalso
      have hlea := hle (p, as) (alookup_mem hpa)
      simp only at hlea
      rw [hpb] at hlea
      simp only [Option.getD_none] at hlea
      have hne : as ≠ [] := by
        have := List.all_eq_true.mp hane (p, as) (alookup_mem hpa)
        simpa using this
      rcases as with _ | ⟨⟨n, v⟩, rest⟩
      · exact hne rfl
      · simp [Asset.le, alookup] at hlea
    · exact ⟨bs, rfl⟩
  have hex1ok : eIsErr (exMap (fun kv =>
      (Asset.subtract kv.2 ((alookup kv.1 a).getD [])).map (fun c => (kv.1, c))) b) = false := by
    by_contra hcon
    rw [Bool.not_eq_false] at hcon
    rcases exMap_error_iff.mp hcon with ⟨⟨p, bs⟩, hm, herr⟩
    rw [except_map_isErr] at herr
    simp only at herr
    have hbn2 : bs.all (fun kv => decide (0 ≤ kv.2)) = true := by
      have := List.all_eq_true.mp hbn (p, bs) hm
      simpa using this
    rcases hpa : alookup p a with _ | as
    · rw [hpa] at herr
      simp only [Option.getD_none] at herr
      have hok : Asset.subtract bs [] = .ok (Asset.rawSub bs []) := by
        apply asset_subtract_ok_iff.mpr
        refine ⟨?_, rfl⟩
        unfold Asset.rawSub
        simp only [List.filter_nil, List.map_nil, List.append_nil]
        rw [List.all_map]
        have heq : ((fun kv => decide ((0 : Int) ≤ kv.2)) ∘
            (fun kv => (kv.1, kv.2 - (alookup kv.1 ([] : Asset)).getD 0)))
            = (fun kv : Bytes × Int => decide (0 ≤ kv.2)) := by
          funext kv
          simp [alookup]
        rw [heq]
        exact hbn2
      rw [hok] at herr
      cases herr
    · rw [hpa] at herr
      simp only [Option.getD_some] at herr
      have hpb : alookup p b = some bs := mem_alookup hm hwb.1
      have hlea := hle (p, as) (alookup_mem hpa)
      simp only at hlea
      rw [hpb] at hlea
      simp only [Option.getD_some] at hlea
      have hok := (asset_sub_ok_of_le (hwa.2 (p, as) (alookup_mem hpa))
        (hwb.2 (p, bs) hm) hlea hbn2).1
      rw [hok] at herr
      cases herr
  rcases not_err_ok hex1ok with ⟨xs, h1⟩
  have hfilter : a.filter (fun kv => (alookup kv.1 b).isNone) = [] := by
    rw [List.filter_eq_nil_iff]
    intro kv hm
    rcases hmemb kv.1 kv.2 (mem_alookup hm hwa.1) with ⟨bs, hpb⟩
    simp [hpb]
  have h2 : exMap (fun kv =>
      (Asset.subtract [] kv.2).map (fun c => (kv.1, c)))
        (a.filter (fun kv => (alookup kv.1 b).isNone)) = .ok [] := by
    rw [hfilter]
    rfl
  have hsub : MultiAsset.subtract b a = .ok (xs ++ []) := by
    unfold MultiAsset.subtract
    rw [h1, h2]
  rw [List.append_nil] at hsub
  refine ⟨xs, hsub, ?_⟩
  have hkeys : akeys xs = akeys b :=
    exMap_pairs_keys (g := fun q bsq => Asset.subtract bsq ((alookup q a).getD [])) h1
  have hndxs : (akeys xs).Nodup := hkeys ▸ hwb.1
  have hndadd : (akeys (MultiAsset.add xs a)).Nodup := by
    unfold MultiAsset.add
    exact nodup_merge_keys (fun q asq => Asset.add asq ((alookup q a).getD [])) hndxs hwa.1
  apply ma_eqB_of_pointwise hndadd hwb.1
  · intro p
    rw [alookup_ma_add]
    rcases hpx : alookup p xs with _ | cx
    · simp only
      constructor
      · intro hpa2
        rcases hpb : alookup p b with _ | bs
        · rfl
        · exfalso
          rcases (exMap_pairs_lookup
            (g := fun q bsq => Asset.subtract bsq ((alookup q a).getD [])) h1 p).2
              bs hpb with ⟨c0, _, hx0⟩
          rw [hpx] at hx0
          cases hx0
      · intro hpb
        rcases hpa2 : alookup p a with _ | as
        · rfl
        · exfalso
          rcases hmemb p as hpa2 with ⟨bs, hpb2⟩
          rw [hpb] at hpb2
          cases hpb2
    · simp only
      constructor
      · intro hcon
        cases hcon
      · intro hpb
        exfalso
        have hx0 := (exMap_pairs_lookup
          (g := fun q bsq => Asset.subtract bsq ((alookup q a).getD [])) h1 p).1 hpb
        rw [hpx] at hx0
        cases hx0
  · intro p ax ay hax hay
    rw [alookup_ma_add] at hax
    rcases (exMap_pairs_lookup
      (g := fun q bsq => Asset.subtract bsq ((alookup q a).getD [])) h1 p).2
        ay hay with ⟨ca, hca, hpxs⟩
    rw [hpxs] at hax
    simp only at hax
    have haxe : ax = Asset.add ca ((alookup p a).getD []) :=
      ((Option.some.injEq _ _).mp hax).symm
    subst haxe
    have hndy : (akeys ay).Nodup := hwb.2 (p, ay) (alookup_mem hay)
    rcases hpa : alookup p a with _ | as
    · rw [hpa] at hca
      simp only [Option.getD_none] at hca
      rcases asset_subtract_ok_iff.mp hca with ⟨_, hcae⟩
      subst hcae
      have hndadd2 : (akeys (Asset.add (Asset.rawSub ay []) [])).Nodup := by
        apply nodup_asset_add_keys
        · exact nodup_rawSub_keys hndy (by simp [akeys])
        · simp [akeys]
      apply (asset_eqB_iff hndadd2 hndy).mpr
      intro k
      rw [alookup_asset_add, alookup_asset_rawSub]
      rcases hk : alookup k ay with _ | w
      · simp [alookup]
      · simp [alookup]
    · rw [hpa] at hca
      simp only [Option.getD_some] at hca
      have hlea := hle (p, as) (alookup_mem hpa)
      simp only at hlea
      rw [hay] at hlea
      simp only [Option.getD_some] at hlea
      have hbn2 : ay.all (fun kv => decide (0 ≤ kv.2)) = true := by
        have := List.all_eq_true.mp hbn (p, ay) (alookup_mem hay)
        simpa using this
      have hco := asset_sub_ok_of_le (hwa.2 (p, as) (alookup_mem hpa)) hndy hlea hbn2
      have hcae : ca = Asset.rawSub ay as := by
        rw [hco.1] at hca
        exact ((Except.ok.injEq _ _).mp hca).symm
      subst hcae
      have hndadd2 : (akeys (Asset.add (Asset.rawSub ay as) as)).Nodup :=
        nodup_asset_add_keys hco.2.2 (hwa.2 (p, as) (alookup_mem hpa))
      apply (asset_eqB_iff hndadd2 hndy).mpr
      intro k
      exact hco.2.1 k

/-! ## Round trip of the binary layer -/

/-- Appending one byte shifts the big-endian value. -/
theorem fromBE_snoc (xs : Bytes) (b : Nat) :
    fromBE (xs ++ [b]) = 256 * fromBE xs + b := by
  unfold fromBE
  rw [List.foldl_append]
  simp [Nat.mul_comm]

/-- Big-endian expansion in k bytes round-trips below 256 to the k. -/
theorem fromBE_beBytes (k : Nat) : ∀ n, n < 256 ^ k → fromBE (beBytes k n) = n := by
  induction k with
  | zero =>
    intro n h
    simp only [pow_zero, Nat.lt_one_iff] at h
    subst h
    rfl
  | succ k ih =>
    intro n h
    simp only [beBytes]
    rw [fromBE_snoc, ih (n / 256) ?hlt]
    · omega
    · rw [Nat.div_lt_iff_lt_mul (by norm_num)]
      calc n < 256 ^ (k + 1) := h
        _ = 256 ^ k * 256 := by ring

/-- A big-endian expansion in k bytes has k bytes. -/
theorem beBytes_length (k : Nat) : ∀ n, (beBytes k n).length = k := by
  induction k with
  | zero => intro n; rfl
  | succ k ih =>
    intro n
    simp [beBytes, ih]

/-- The minimal big-endian expansion round-trips, given enough fuel. -/
theorem fromBE_minBEAux : ∀ f n, n ≤ f → fromBE (minBEAux f n) = n := by
  intro f
  induction f with
  | zero =>
    intro n h
    interval_cases n
    rfl
  | succ f ih =>
    intro n h
    by_cases h0 : n = 0
    · subst h0
      simp [minBEAux, fromBE]
    · simp only [minBEAux, h0, if_false]
      rw [fromBE_snoc, ih (n / 256) (by omega)]
      omega

/-- The minimal big-endian expansion round-trips. -/
theorem fromBE_minBE (n : Nat) : fromBE (minBE n) = n :=
  fromBE_minBEAux n n le_rfl

/-- Reading exactly the length of a prefix returns it. -/
theorem readN_append (xs rest : Bytes) :
    readN xs.length (xs ++ rest) = some (xs, rest) := by
  induction xs with
  | nil => rfl
  | cons b bs ih =>
    simp [readN, ih]

/-- The additional-information nibble of a canonical argument is small. -/
theorem encArg_ai_lt (n : Nat) : (encArg n).1 < 28 := by
  unfold encArg
  split_ifs <;> simp <;> omega

/-- Decoding a canonical argument recovers it. -/
theorem readLen_encArg (n : Nat) (rest : Bytes) (hn : n < 2 ^ 64) :
    readLen (encArg n).1 ((encArg n).2 ++ rest) = some (n, rest) := by
  by_cases h24 : n < 24
  · have harg : encArg n = (n, []) := by simp [encArg, h24]
    rw [harg]
    simp [readLen, h24]
  · by_cases h8 : n < 256
    · have harg : encArg n = (24, [n]) := by
        unfold encArg
        norm_num [h24, h8]
      rw [harg]
      simp [readLen]
    · by_cases h16 : n < 65536
      · have harg : encArg n = (25, beBytes 2 n) := by
          unfold encArg
          norm_num [h24, h8, h16]
        rw [harg]
        unfold readLen
        norm_num
        have h2 : readN 2 (beBytes 2 n ++ rest) = some (beBytes 2 n, rest) := by
          have hr := readN_append (beBytes 2 n) rest
          rwa [beBytes_length] at hr
        rw [h2]
        simp [fromBE_beBytes 2 n (by omega)]
      · by_cases h32 : n < 4294967296
        · have harg : encArg n = (26, beBytes 4 n) := by
            unfold encArg
            norm_num [h24, h8, h16, h32]
          rw [harg]
          unfold readLen
          norm_num
          have h2 : readN 4 (beBytes 4 n ++ rest) = some (beBytes 4 n, rest) := by
            have hr := readN_append (beBytes 4 n) rest
            rwa [beBytes_length] at hr
          rw [h2]
          simp [fromBE_beBytes 4 n (by omega)]
        · have harg : encArg n = (27, beBytes 8 n) := by
            unfold encArg
            norm_num [h24, h8, h16, h32]
          rw [harg]
          unfold readLen
          norm_num
          have h2 : readN 8 (beBytes 8 n ++ rest) = some (beBytes 8 n, rest) := by
            have hr := readN_append (beBytes 8 n) rest
            rwa [beBytes_length] at hr
          rw [h2]
          simp [fromBE_beBytes 8 n (by omega)]

/-- After a canonical header the decoder runs its continuation on the
recovered major type and argument. -/
theorem decP_encHead (f mt n : Nat) (hmt : mt < 7) (hn : n < 2 ^ 64) (tl : Bytes) :
    decP (f + 1) (encHead mt n ++ tl) = decPBody f mt n tl := by
  have hai := encArg_ai_lt n
  have hcons : encHead mt n ++ tl
      = (32 * mt + (encArg n).1) :: ((encArg n).2 ++ tl) := by
    simp [encHead]
  rw [hcons]
  have hdiv : (32 * mt + (encArg n).1) / 32 = mt := by omega
  have hmod : (32 * mt + (encArg n).1) % 32 = (encArg n).1 := by omega
  have hne : ¬ (32 * mt + (encArg n).1 = 244) := by omega
  have hne2 : ¬ (32 * mt + (encArg n).1 = 245) := by omega
  have hne3 : ¬ (32 * mt + (encArg n).1 = 246) := by omega
  simp only [decP, hdiv, hmod]
  rw [readLen_encArg n tl hn]
  interval_cases mt <;> simp [decPBody, hne, hne2, hne3]

/-- Every tree needs at least one unit of fuel. -/
theorem sizeT_pos (t : PrimT) : 1 ≤ sizeT t := by
  cases t <;> simp [sizeT]

/-- Joint round trip of the binary layer at every sufficient fuel: decoding
an encoded realizable tree, sequence or pair list recovers it and leaves the
remaining bytes untouched. -/
theorem dec_enc_all : ∀ f : Nat,
    (∀ t rest, sizeT t ≤ f → wfT t = true →
      decP f (encodeP t ++ rest) = some (t, rest))
  ∧ (∀ l rest, sizeL l ≤ f → wfL l = true →
      decList f l.length (encodeL l ++ rest) = some (l, rest))
  ∧ (∀ m rest, sizeM m ≤ f → wfM m = true →
      decPairs f m.length (encodeM m ++ rest) = some (m, rest)) := by
  intro f
  induction f with
  | zero =>
    refine ⟨?_, ?_, ?_⟩
    · intro t rest hs _
      have := sizeT_pos t
      omega
    · intro l rest hs _
      cases l with
      | nil => rfl
      | cons t ts =>
        exfalso
        simp only [sizeL] at hs
        omega
    · intro m rest hs _
      cases m with
      | nil => rfl
      | cons kv m2 =>
        exfalso
        simp only [sizeM] at hs
        omega
  | succ f ih =>
    obtain ⟨ihT, ihL, ihM⟩ := ih
    refine ⟨?_, ?_, ?_⟩
    · intro t rest hs hw
      cases t with
      | pint i =>
        simp only [sizeT] at hs
        by_cases h0 : 0 ≤ i
        · simp only [wfT, h0, if_true, decide_eq_true_eq] at hw
          by_cases h64 : i.toNat < 2 ^ 64
          · simp only [encodeP, h0, if_true, h64]
            rw [decP_encHead f 0 i.toNat (by omega) h64 rest]
            have hred : decPBody f 0 i.toNat rest
                = some (.pint (Int.ofNat i.toNat), rest) := rfl
            rw [hred]
            have hcast : Int.ofNat i.toNat = i := by
              rw [Int.ofNat_eq_coe]
              omega
            rw [hcast]
          · simp only [encodeP, h0, if_true, h64, if_false]
            simp only [List.cons_append, List.append_assoc]
            simp only [decP]
            norm_num [readLen]
            have hb := ihT (.pbytes (minBE i.toNat)) rest
              (by simp [sizeT]; omega) (by simp [wfT]; omega)
            simp only [encodeP, List.append_assoc] at hb
            rw [hb]
            have hcast : Int.ofNat (fromBE (minBE i.toNat)) = i := by
              rw [Int.ofNat_eq_coe, fromBE_minBE]
              omega
            show some (PrimT.pint (Int.ofNat (fromBE (minBE i.toNat))), rest)
              = some (.pint i, rest)
            rw [hcast]
        · simp only [wfT, h0, if_false, decide_eq_true_eq] at hw
          by_cases h64 : (-1 - i).toNat < 2 ^ 64
          · simp only [encodeP, h0, if_false, h64, if_true]
            rw [decP_encHead f 1 (-1 - i).toNat (by omega) h64 rest]
            have hred : decPBody f 1 ((-1 - i).toNat) rest
                = some (.pint (-1 - Int.ofNat ((-1 - i).toNat)), rest) := rfl
            rw [hred]
            have hcast : -1 - Int.ofNat ((-1 - i).toNat) = i := by
              rw [Int.ofNat_eq_coe]
              omega
            rw [hcast]
          · simp only [encodeP, h0, if_false, h64, if_false]
            simp only [List.cons_append, List.append_assoc]
            simp only [decP]
            norm_num [readLen]
            have hb := ihT (.pbytes (minBE (-1 - i).toNat)) rest
              (by simp [sizeT]; omega) (by simp [wfT]; omega)
            simp only [encodeP, List.append_assoc] at hb
            rw [hb]
            have hcast : -1 - Int.ofNat (fromBE (minBE (-1 - i).toNat)) = i := by
              rw [Int.ofNat_eq_coe, fromBE_minBE]
              omega
            show some (PrimT.pint (-1 - Int.ofNat (fromBE (minBE (-1 - i).toNat))), rest)
              = some (.pint i, rest)
            rw [hcast]
      | pbytes b =>
        simp only [wfT, decide_eq_true_eq] at hw
        simp only [encodeP, List.append_assoc]
        rw [decP_encHead f 2 b.length (by omega) hw (b ++ rest)]
        simp only [decPBody]
        norm_num
        rw [readN_append b rest]
      | pbool bb =>
        cases bb
        · simp only [encodeP, List.cons_append, List.nil_append]
          simp only [decP]
          norm_num
        · simp only [encodeP, List.cons_append, List.nil_append]
          simp only [decP]
          norm_num
      | pnull =>
        simp only [encodeP, List.cons_append, List.nil_append]
        simp only [decP]
        norm_num
      | parr l =>
        simp only [sizeT] at hs
        simp only [wfT, Bool.and_eq_true, decide_eq_true_eq] at hw
        simp only [encodeP, List.append_assoc]
        rw [decP_encHead f 4 l.length (by omega) hw.1 (encodeL l ++ rest)]
        simp only [decPBody]
        norm_num
        rw [ihL l rest (by omega) hw.2]
      | pmap m =>
        simp only [sizeT] at hs
        simp only [wfT, Bool.and_eq_true, decide_eq_true_eq] at hw
        simp only [encodeP, List.append_assoc]
        rw [decP_encHead f 5 m.length (by omega) hw.1 (encodeM m ++ rest)]
        simp only [decPBody]
        norm_num
        rw [ihM m rest (by omega) hw.2]
    · intro l rest hs hw
      cases l with
      | nil => rfl
      | cons t ts =>
        simp only [sizeL] at hs
        simp only [wfL, Bool.and_eq_true] at hw
        simp only [encodeL, List.append_assoc, List.length_cons]
        simp only [decList]
        rw [ihT t (encodeL ts ++ rest) (by omega) hw.1]
        show (match decList f ts.length (encodeL ts ++ rest) with
          | some (ts2, r2) => some (t :: ts2, r2)
          | none => none) = some (t :: ts, rest)
        rw [ihL ts rest (by omega) hw.2]
    · intro m rest hs hw
      cases m with
      | nil => rfl
      | cons kv m2 =>
        simp only [sizeM] at hs
        simp only [wfM, Bool.and_eq_true] at hw
        simp only [encodeM, List.append_assoc, List.length_cons]
        simp only [decPairs]
        rw [ihT kv.1 (encodeP kv.2 ++ (encodeM m2 ++ rest)) (by omega) hw.1.1]
        show (match decP f (encodeP kv.2 ++ (encodeM m2 ++ rest)) with
          | some (v, r2) =>
            match decPairs f m2.length r2 with
            | some (m3, r3) => some ((kv.1, v) :: m3, r3)
            | none => none
          | none => none) = some (kv :: m2, rest)
        rw [ihT kv.2 (encodeM m2 ++ rest) (by omega) hw.1.2]
        show (match decPairs f m2.length (encodeM m2 ++ rest) with
          | some (m3, r3) => some ((kv.1, kv.2) :: m3, r3)
          | none => none) = some (kv :: m2, rest)
        rw [ihM m2 rest (by omega) hw.2]

/-- The fuel bound of a tree is under three times its encoded length. -/
theorem size_le_len_all : ∀ f : Nat,
    (∀ t, sizeT t ≤ f → sizeT t + 1 ≤ 3 * (encodeP t).length)
  ∧ (∀ l, sizeL l ≤ f → sizeL l ≤ 3 * (encodeL l).length)
  ∧ (∀ m, sizeM m ≤ f → sizeM m ≤ 3 * (encodeM m).length) := by
  intro f
  induction f with
  | zero =>
    refine ⟨?_, ?_, ?_⟩
    · intro t hs
      have := sizeT_pos t
      omega
    · intro l hs
      cases l with
      | nil => simp [sizeL]
      | cons t ts =>
        exfalso
        simp only [sizeL] at hs
        omega
    · intro m hs
      cases m with
      | nil => simp [sizeM]
      | cons kv m2 =>
        exfalso
        simp only [sizeM] at hs
        omega
  | succ f ih =>
    obtain ⟨ihT, ihL, ihM⟩ := ih
    refine ⟨?_, ?_, ?_⟩
    · intro t hs
      cases t with
      | pint i =>
        simp only [sizeT, encodeP]
        split_ifs <;> simp [encHead] <;> omega
      | pbytes b =>
        simp only [sizeT, encodeP, encHead, List.length_append, List.length_cons]
        omega
      | pbool bb =>
        cases bb <;> simp [sizeT, encodeP]
      | pnull =>
        simp [sizeT, encodeP]
      | parr l =>
        simp only [sizeT] at hs ⊢
        have h1 := ihL l (by omega)
        simp only [encodeP, List.length_append]
        have h2 : 1 ≤ (encHead 4 l.length).length := by simp [encHead]
        omega
      | pmap m =>
        simp only [sizeT] at hs ⊢
        have h1 := ihM m (by omega)
        simp only [encodeP, List.length_append]
        have h2 : 1 ≤ (encHead 5 m.length).length := by simp [encHead]
        omega
    · intro l hs
      cases l with
      | nil => simp [sizeL]
      | cons t ts =>
        simp only [sizeL] at hs ⊢
        have h1 := ihT t (by omega)
        have h2 := ihL ts (by omega)
        simp only [encodeL, List.length_append]
        omega
    · intro m hs
      cases m with
      | nil => simp [sizeM]
      | cons kv m2 =>
        simp only [sizeM] at hs ⊢
        have h1 := ihT kv.1 (by omega)
        have h2 := ihT kv.2 (by omega)
        have h3 := ihM m2 (by omega)
        simp only [encodeM, List.length_append]
        omega

/-- Decoding the canonical bytes of a realizable tree recovers it. -/
theorem decodeBytes_encodeP {t : PrimT} (hw : wfT t = true) :
    decodeBytes (encodeP t) = some t := by
  unfold decodeBytes
  have hfuel : sizeT t ≤ 3 * (encodeP t).length := by
    have := (size_le_len_all (sizeT t)).1 t le_rfl
    omega
  have hdec := (dec_enc_all (3 * (encodeP t).length)).1 t [] hfuel hw
  rw [List.append_nil] at hdec
  rw [hdec]

/-- The canonical encoding is injective on realizable trees. -/
theorem encodeP_inj {t t2 : PrimT} (h1 : wfT t = true) (h2 : wfT t2 = true)
    (he : encodeP t = encodeP t2) : t = t2 := by
  have d1 := decodeBytes_encodeP h1
  have d2 := decodeBytes_encodeP h2
  rw [he, d2] at d1
  exact ((Option.some.injEq _ _).mp d1).symm

/-- A fallible map inverts an element-wise serialization. -/
theorem exMap_roundtrip {f : α → β} {g : β → Except ε α}
    (h : ∀ x, g (f x) = .ok x) (l : List α) : exMap g (l.map f) = .ok l := by
  induction l with
  | nil => rfl
  | cons x xs ih =>
    simp only [List.map_cons, exMap]
    rw [h x, ih]

/-- Asset conversion to the primitive tree round-trips. -/
theorem asset_prim_roundtrip (a : Asset) :
    Asset.fromPrimitive (Asset.toPrimitive a) = .ok a := by
  simp only [Asset.toPrimitive, Asset.fromPrimitive]
  apply exMap_roundtrip
  intro kv
  rfl

/-- MultiAsset conversion to the primitive tree round-trips. -/
theorem ma_prim_roundtrip (m : MultiAsset) :
    MultiAsset.fromPrimitive (MultiAsset.toPrimitive m) = .ok m := by
  simp only [MultiAsset.toPrimitive, MultiAsset.fromPrimitive]
  apply exMap_roundtrip
  intro kv
  simp only [asset_prim_roundtrip]

/-- Value conversion to the primitive tree round-trips. -/
theorem value_prim_roundtrip (v : Value) :
    Value.fromPrimitive (Value.toPrimitive v) = .ok v := by
  simp only [Value.toPrimitive, Value.fromPrimitive, ma_prim_roundtrip]

/-- Transaction input conversion to the primitive tree round-trips. -/
theorem txin_prim_roundtrip (x : TransactionInput) :
    TransactionInput.fromPrimitive (TransactionInput.toPrimitive x) = .ok x := by
  cases x
  rfl

/-- Amount conversion to the primitive tree round-trips. -/
theorem amount_prim_roundtrip (x : Amount) :
    Amount.fromPrimitive (Amount.toPrimitive x) = .ok x := by
  cases x with
  | coin n => rfl
  | value v =>
    simp only [Amount.toPrimitive, Value.toPrimitive, Amount.fromPrimitive]
    have hv := value_prim_roundtrip v
    simp only [Value.toPrimitive] at hv
    rw [hv]

/-- Transaction output conversion to the primitive tree round-trips. -/
theorem txout_prim_roundtrip (x : TransactionOutput) :
    TransactionOutput.fromPrimitive (TransactionOutput.toPrimitive x) = .ok x := by
  rcases x with ⟨addr, am⟩
  simp only [TransactionOutput.toPrimitive, TransactionOutput.fromPrimitive,
    amount_prim_roundtrip]

/-- Transaction body conversion to the primitive tree round-trips. -/
theorem body_prim_roundtrip (x : TransactionBody) :
    TransactionBody.fromPrimitive (TransactionBody.toPrimitive x) = .ok x := by
  rcases x with ⟨ins, outs, fee, coll, rs⟩
  have hins : exMap TransactionInput.fromPrimitive
      (ins.map TransactionInput.toPrimitive) = .ok ins :=
    exMap_roundtrip txin_prim_roundtrip ins
  have houts : exMap TransactionOutput.fromPrimitive
      (outs.map TransactionOutput.toPrimitive) = .ok outs :=
    exMap_roundtrip txout_prim_roundtrip outs
  rcases coll with _ | c
  · rcases rs with _ | r
    · simp only [TransactionBody.toPrimitive, List.append_nil]
      simp only [TransactionBody.fromPrimitive, TransactionBody.fromPrimTail]
      rw [hins, houts]
    · have hr : exMap pbytesOf (r.map PrimT.pbytes) = .ok r :=
        exMap_roundtrip (g := pbytesOf) (f := PrimT.pbytes) (fun b => rfl) r
      simp only [TransactionBody.toPrimitive, List.append_nil, List.nil_append,
        List.cons_append]
      simp only [TransactionBody.fromPrimitive, TransactionBody.fromPrimTail]
      rw [hins, houts, hr]
  · have hc : exMap TransactionInput.fromPrimitive
        (c.map TransactionInput.toPrimitive) = .ok c :=
      exMap_roundtrip txin_prim_roundtrip c
    rcases rs with _ | r
    · simp only [TransactionBody.toPrimitive, List.append_nil, List.nil_append,
        List.cons_append]
      simp only [TransactionBody.fromPrimitive, TransactionBody.fromPrimTail]
      rw [hins, houts, hc]
    · have hr : exMap pbytesOf (r.map PrimT.pbytes) = .ok r :=
        exMap_roundtrip (g := pbytesOf) (f := PrimT.pbytes) (fun b => rfl) r
      simp only [TransactionBody.toPrimitive, List.append_nil, List.nil_append,
        List.cons_append]
      simp only [TransactionBody.fromPrimitive, TransactionBody.fromPrimTail]
      rw [hins, houts, hc, hr]

/-- Witness conversion to the primitive tree round-trips. -/
theorem vkw_prim_roundtrip (w : VerificationKeyWitness) :
    VerificationKeyWitness.fromPrimitive (VerificationKeyWitness.toPrimitive w) = .ok w := by
  cases w
  rfl

/-- Witness-set conversion to the primitive tree round-trips. -/
theorem ws_prim_roundtrip (w : TransactionWitnessSet) :
    TransactionWitnessSet.fromPrimitive (TransactionWitnessSet.toPrimitive w) = .ok w := by
  rcases w with ⟨_ | l⟩
  · rfl
  · have hl : exMap VerificationKeyWitness.fromPrimitive
        (l.map VerificationKeyWitness.toPrimitive) = .ok l :=
      exMap_roundtrip vkw_prim_roundtrip l
    simp only [TransactionWitnessSet.toPrimitive, TransactionWitnessSet.fromPrimitive]
    rw [hl]

/-- Transaction conversion to the primitive tree round-trips. -/
theorem tx_prim_roundtrip (t : Transaction) :
    Transaction.fromPrimitive (Transaction.toPrimitive t) = .ok t := by
  rcases t with ⟨b, w⟩
  simp only [Transaction.toPrimitive, Transaction.fromPrimitive]
  rw [body_prim_roundtrip, ws_prim_roundtrip]

/-- The full binary round trip follows from the primitive round trip and the
realizability of the serialized tree. -/
theorem fromCbor_toCbor {α : Type} {toP : α → PrimT}
    {fromP : PrimT → Except DeserializeError α}
    (hrt : ∀ y, fromP (toP y) = .ok y) (x : α) (hw : wfT (toP x) = true) :
    fromCborWith fromP (encodeP (toP x)) = .ok x := by
  unfold fromCborWith
  rw [decodeBytes_encodeP hw]
  exact hrt x

/-- Setting a position in range changes the read-back value. -/
theorem getD_set_self (l : Bytes) (i v : Nat) (h : i < l.length) :
    (l.set i v).getD i 0 = v := by
  induction l generalizing i with
  | nil => simp at h
  | cons b bs ih =>
    cases i with
    | zero => rfl
    | succ j =>
      simp only [List.set, List.getD_cons_succ]
      exact ih j (by simpa using h)

/-- The canonical envelope encoding is injective in the payload for
realizable byte lengths. -/
theorem envelopeSig_inj {keyB p1 p2 : Bytes}
    (hk : keyB.length < 2 ^ 64) (h1 : p1.length < 2 ^ 64) (h2 : p2.length < 2 ^ 64)
    (he : envelopeSig keyB p1 = envelopeSig keyB p2) : p1 = p2 := by
  unfold envelopeSig at he
  have hw1 : wfT (.parr [.pbytes keyB, .pbytes p1]) = true := by
    simp only [wfT, wfL, Bool.and_eq_true, decide_eq_true_eq]
    refine ⟨by norm_num, ?_, ?_, trivial⟩ <;> omega
  have hw2 : wfT (.parr [.pbytes keyB, .pbytes p2]) = true := by
    simp only [wfT, wfL, Bool.and_eq_true, decide_eq_true_eq]
    refine ⟨by norm_num, ?_, ?_, trivial⟩ <;> omega
  have := encodeP_inj hw1 hw2 he
  injection this with hlist
  injection hlist with _ htl
  injection htl with hp _
  injection hp

/-! ## The claims -/

/-- C1: for every value of every type participating in the codec, Asset,
MultiAsset, Value, TransactionInput, TransactionOutput, TransactionBody and
Transaction, converting to the primitive tree and back returns the value, and
for the binary layer decoding the encoding returns the value; the binary
clause carries the realizability of the serialized tree, every length fitting
a canonical 64-bit header argument as it does for any machine-held value. -/
theorem claim_C1_codec_roundtrip :
    (∀ a : Asset, Asset.fromPrimitive (Asset.toPrimitive a) = .ok a)
  ∧ (∀ m : MultiAsset, MultiAsset.fromPrimitive (MultiAsset.toPrimitive m) = .ok m)
  ∧ (∀ v : Value, Value.fromPrimitive (Value.toPrimitive v) = .ok v)
  ∧ (∀ x : TransactionInput,
      TransactionInput.fromPrimitive (TransactionInput.toPrimitive x) = .ok x)
  ∧ (∀ x : TransactionOutput,
      TransactionOutput.fromPrimitive (TransactionOutput.toPrimitive x) = .ok x)
  ∧ (∀ x : TransactionBody,
      TransactionBody.fromPrimitive (TransactionBody.toPrimitive x) = .ok x)
  ∧ (∀ x : Transaction, Transaction.fromPrimitive (Transaction.toPrimitive x) = .ok x)
  ∧ (∀ a : Asset, wfT (Asset.toPrimitive a) = true →
      Asset.fromCbor (Asset.toCbor a) = .ok a)
  ∧ (∀ m : MultiAsset, wfT (MultiAsset.toPrimitive m) = true →
      MultiAsset.fromCbor (MultiAsset.toCbor m) = .ok m)
  ∧ (∀ v : Value, wfT (Value.toPrimitive v) = true →
      Value.fromCbor (Value.toCbor v) = .ok v)
  ∧ (∀ x : TransactionInput, wfT (TransactionInput.toPrimitive x) = true →
      TransactionInput.fromCbor (TransactionInput.toCbor x) = .ok x)
  ∧ (∀ x : TransactionOutput, wfT (TransactionOutput.toPrimitive x) = true →
      TransactionOutput.fromCbor (TransactionOutput.toCbor x) = .ok x)
  ∧ (∀ x : TransactionBody, wfT (TransactionBody.toPrimitive x) = true →
      TransactionBody.fromCbor (TransactionBody.toCbor x) = .ok x)
  ∧ (∀ x : Transaction, wfT (Transaction.toPrimitive x) = true →
      Transaction.fromCbor (Transaction.toCbor x) = .ok x) :=
  ⟨asset_prim_roundtrip, ma_prim_roundtrip, value_prim_roundtrip,
   txin_prim_roundtrip, txout_prim_roundtrip, body_prim_roundtrip,
   tx_prim_roundtrip,
   fun a hw => fromCbor_toCbor asset_prim_roundtrip a hw,
   fun m hw => fromCbor_toCbor ma_prim_roundtrip m hw,
   fun v hw => fromCbor_toCbor value_prim_roundtrip v hw,
   fun x hw => fromCbor_toCbor txin_prim_roundtrip x hw,
   fun x hw => fromCbor_toCbor txout_prim_roundtrip x hw,
   fun x hw => fromCbor_toCbor body_prim_roundtrip x hw,
   fun x hw => fromCbor_toCbor tx_prim_roundtrip x hw⟩

/-- Witness for C1: the binary round trip applied to a concrete Asset and to
a concrete full transaction, the realizability hypotheses decided. -/
theorem claim_C1_codec_roundtrip_witness :
    (wfT (Asset.toPrimitive assetW) = true
      ∧ Asset.fromCbor (Asset.toCbor assetW) = .ok assetW)
    ∧ (wfT (Transaction.toPrimitive txW) = true
      ∧ Transaction.fromCbor (Transaction.toCbor txW) = .ok txW) :=
  ⟨⟨by decide, claim_C1_codec_roundtrip.2.2.2.2.2.2.2.1 assetW (by decide)⟩,
   ⟨by decide,
    claim_C1_codec_roundtrip.2.2.2.2.2.2.2.2.2.2.2.2.2 txW (by decide)⟩⟩

/-- C2: MultiAsset subtraction raises InvalidOperationException exactly when
some flattened policy-name quantity of the difference would be negative, a
pair present only in the subtrahend counting through its implicit zero on the
minuend side; Value subtraction raises exactly when the base quantity would
go negative or the MultiAsset subtraction would raise; otherwise both return
the key-wise difference. -/
theorem claim_C2_subtraction_error_iff :
    (∀ a b : MultiAsset, MAWF a → MAWF b →
      (eIsErr (MultiAsset.subtract a b) = true ↔
        ∃ p n, maQty a p n - maQty b p n < 0))
  ∧ (∀ a b c : MultiAsset, MultiAsset.subtract a b = .ok c →
      ∀ p n, maQty c p n = maQty a p n - maQty b p n)
  ∧ (∀ v w : Value, eIsErr (Value.sub v w) = true ↔
      (v.coin - w.coin < 0
        ∨ eIsErr (MultiAsset.subtract v.multiAsset w.multiAsset) = true))
  ∧ (∀ v w u : Value, Value.sub v w = .ok u →
      u.coin = v.coin - w.coin
        ∧ MultiAsset.subtract v.multiAsset w.multiAsset = .ok u.multiAsset) :=
  ⟨fun a b hwa hwb => ma_subtract_error_iff hwa hwb,
   fun a b c h => ma_subtract_ok_qty h,
   fun v w => value_sub_error_iff,
   fun v w u h => value_sub_ok h⟩

/-- Witness for C2: the error characterization applied to a concrete
MultiAsset against itself, and the success characterization of a concrete
Value difference, all hypotheses decided. -/
theorem claim_C2_subtraction_error_iff_witness :
    (MAWF maW
      ∧ (eIsErr (MultiAsset.subtract maW maW) = true ↔
          ∃ p n, maQty maW p n - maQty maW p n < 0))
    ∧ (Value.sub valueW valueW = .ok { coin := 0, multiAsset := [([1], [([2], 0)])] }
      ∧ ((0 : Int) = valueW.coin - valueW.coin
        ∧ MultiAsset.subtract valueW.multiAsset valueW.multiAsset
            = .ok [([1], [([2], 0)])])) :=
  ⟨⟨by decide, claim_C2_subtraction_error_iff.1 maW maW (by decide) (by decide)⟩,
   ⟨by decide,
    claim_C2_subtraction_error_iff.2.2.2 valueW valueW
      { coin := 0, multiAsset := [([1], [([2], 0)])] } (by decide)⟩⟩

/-- C3 counterexample: the claim reads the fixture in the direction big
minus small, but that subtraction succeeds with the key-wise difference the
test itself expects, so the claim as stated is false. -/
theorem claim_C3_counterexample :
    MultiAsset.subtract maBigFx maSmallFx = .ok maBigMinusSmallFx := by
  decide

/-- C3 amended: the failing direction of the fixture is small minus big,
where policy2 is absent from the minuend, and there the subtraction raises
InvalidOperationException. -/
theorem claim_C3_failing_direction :
    eIsErr (MultiAsset.subtract maSmallFx maBigFx) = true := by
  decide

/-- C4: the Asset order holds exactly when every key of the left operand is
present on the right with a dominating quantity, Asset equality holds exactly
when the lookups agree everywhere, and comparison against a non-Asset operand
raises TypeError. -/
theorem claim_C4_asset_order :
    (∀ a b : Asset, (akeys a).Nodup →
      (Asset.le a b = true ↔
        ∀ k v, alookup k a = some v → ∃ w, alookup k b = some w ∧ v ≤ w))
  ∧ (∀ a b : Asset, (akeys a).Nodup → (akeys b).Nodup →
      (Asset.eqB a b = true ↔ ∀ k, alookup k a = alookup k b))
  ∧ (∀ (a : Asset) (o : PyObj), (∀ b : Asset, o ≠ .ofAsset b) →
      Asset.leDyn a o = .error {}) := by
  refine ⟨fun a b ha => asset_le_iff ha,
    fun a b ha hb => asset_eqB_iff ha hb, ?_⟩
  intro a o ho
  cases o with
  | ofAsset b => exact absurd rfl (ho b)
  | ofMultiAsset m => rfl
  | ofInt n => rfl

/-- Witness for C4: the order characterization at concrete Assets and the
TypeError on an integer operand, hypotheses decided or discharged. -/
theorem claim_C4_asset_order_witness :
    ((akeys assetW).Nodup
      ∧ (Asset.le assetW assetW2 = true ↔
          ∀ k v, alookup k assetW = some v →
            ∃ w, alookup k assetW2 = some w ∧ v ≤ w))
    ∧ Asset.leDyn assetW (.ofInt 1) = .error {} :=
  ⟨⟨by decide, claim_C4_asset_order.1 assetW assetW2 (by decide)⟩,
   claim_C4_asset_order.2.2 assetW (.ofInt 1)
     (fun b h => PyObj.noConfusion h)⟩

/-- C5 counterexample: the empty MultiAsset is below one holding a negative
quantity, yet subtracting the empty MultiAsset from it raises, because the
result would keep the negative component. -/
theorem claim_C5_counterexample :
    MultiAsset.le ([] : MultiAsset) maNegFx = true
    ∧ eIsErr (MultiAsset.subtract maNegFx ([] : MultiAsset)) = true := by
  decide

/-- C5 amended: for well-formed MultiAssets with the left operand below the
right one, the subtraction of the smaller from the larger succeeds and adding
the smaller back restores the larger, provided every quantity of the larger
operand is nonnegative and every policy of the smaller operand maps to a
non-empty Asset. -/
theorem claim_C5_ordered_roundtrip :
    ∀ a b : MultiAsset, MAWF a → MAWF b → MultiAsset.le a b = true →
      b.all (fun kv => kv.2.all (fun nv => decide (0 ≤ nv.2))) = true →
      a.all (fun kv => decide (kv.2 ≠ [])) = true →
      ∃ c, MultiAsset.subtract b a = .ok c
        ∧ MultiAsset.eqB (MultiAsset.add c a) b = true :=
  fun a b hwa hwb hab hbn hane => ma_sub_add_roundtrip hwa hwb hab hbn hane

/-- Witness for C5: the ordered round trip at the literal fixtures of the
subtraction test, all hypotheses decided. -/
theorem claim_C5_ordered_roundtrip_witness :
    (MAWF maSmallFx ∧ MAWF maBigFx ∧ MultiAsset.le maSmallFx maBigFx = true)
    ∧ ∃ c, MultiAsset.subtract maBigFx maSmallFx = .ok c
        ∧ MultiAsset.eqB (MultiAsset.add c maSmallFx) maBigFx = true :=
  ⟨⟨by decide, by decide, by decide⟩,
   claim_C5_ordered_roundtrip maSmallFx maBigFx (by decide) (by decide)
     (by decide) (by decide) (by decide)⟩

/-- C6: signing the blake2b body hash of the fixed transaction body with the
fixed signing-key seed produces exactly the literal sixty-four byte signature
of the test, and the signature is a deterministic function of the key and
message pair. -/
theorem claim_C6_deterministic_signature :
    ed25519Sign skSeedFixture (TransactionBody.bodyHash bodyFixture) = sigFixture
  ∧ ∀ k k2 m m2 : Bytes, k = k2 → m = m2 → ed25519Sign k m = ed25519Sign k2 m2 := by
  constructor
  · decide
  · intro k k2 m m2 hk hm
    rw [hk, hm]

/-- Witness for C6: the determinism conjunct applied at concrete equal
inputs. -/
theorem claim_C6_deterministic_signature_witness :
    ([0] : Bytes) = [0] ∧ ed25519Sign [0] [1] = ed25519Sign [0] [1] :=
  ⟨rfl, claim_C6_deterministic_signature.2 [0] [0] [1] [1] rfl rfl⟩

/-- C7: the fixed transaction input encodes to exactly the canonical byte
string of the test. -/
theorem claim_C7_input_encoding :
    TransactionInput.toCbor txInFixture = txInCborFixture := by
  decide

/-- C8: the fixed transaction body encodes to exactly the canonical byte
string of the test, and decoding that byte string returns an equal body. -/
theorem claim_C8_body_encoding :
    TransactionBody.toCbor bodyFixture = bodyCborFixture
  ∧ TransactionBody.fromCbor bodyCborFixture = .ok bodyFixture := by
  constructor
  · decide
  · have he : bodyCborFixture = TransactionBody.toCbor bodyFixture := by decide
    rw [he]
    exact fromCbor_toCbor body_prim_roundtrip bodyFixture (by decide)

/-- C9: verification of a built envelope reports success with the original
payload, and on any single-byte change of the payload it reports failure,
returning a result in every case rather than raising. -/
theorem claim_C9_envelope_verification :
    ∀ payload keyB : Bytes, payload.length < 2 ^ 64 → keyB.length < 2 ^ 64 →
      (verifyEnvelope (buildEnvelope payload keyB)).verified = true
      ∧ (verifyEnvelope (buildEnvelope payload keyB)).message = payload
      ∧ ∀ i v, i < payload.length → v ≠ payload.getD i 0 →
          (verifyEnvelope (tamperPayload (buildEnvelope payload keyB) i v)).verified = false := by
  intro payload keyB hp hk
  refine ⟨?_, rfl, ?_⟩
  · simp [verifyEnvelope, buildEnvelope]
  · intro i v hi hv
    simp only [verifyEnvelope, tamperPayload, buildEnvelope]
    rw [decide_eq_false_iff_not]
    intro heq
    have hlen : (payload.set i v).length < 2 ^ 64 := by
      rw [List.length_set]
      exact hp
    have hpp := envelopeSig_inj hk hp hlen heq
    have hgd := getD_set_self payload i v hi
    rw [← hpp] at hgd
    exact hv hgd.symm

/-- Witness for C9: the envelope claims at a concrete payload and key, with
a concrete tampering position and value, all hypotheses decided. -/
theorem claim_C9_envelope_verification_witness :
    (envPayloadFx.length < 2 ^ 64 ∧ envKeyFx.length < 2 ^ 64
      ∧ 1 < envPayloadFx.length ∧ (7 : Nat) ≠ envPayloadFx.getD 1 0)
    ∧ (verifyEnvelope (tamperPayload (buildEnvelope envPayloadFx envKeyFx) 1 7)).verified
        = false :=
  ⟨⟨by decide, by decide, by decide, by decide⟩,
   (claim_C9_envelope_verification envPayloadFx envKeyFx (by decide) (by decide)).2.2
     1 7 (by decide) (by decide)⟩

/-- C10 counterexample: two MultiAssets at disjoint single policies whose
inner Assets are empty are reported comparable, the order returning true, so
the claim fails for MultiAssets as stated. -/
theorem claim_C10_counterexample :
    maEmptyInner1 ≠ [] ∧ maEmptyInner2 ≠ []
    ∧ akeys maEmptyInner1 = [[1]] ∧ akeys maEmptyInner2 = [[2]]
    ∧ MultiAsset.le maEmptyInner1 maEmptyInner2 = true := by
  decide

/-- C10 amended: Assets over disjoint non-empty key sets are incomparable,
all three comparisons returning false rather than raising; for MultiAssets
likewise, provided every policy of either operand maps to a non-empty
Asset. -/
theorem claim_C10_incomparable :
    (∀ a d : Asset, a ≠ [] → d ≠ [] →
      (∀ k, (alookup k a).isSome = true → alookup k d = none) →
      Asset.eqB a d = false ∧ Asset.le a d = false ∧ Asset.le d a = false)
  ∧ (∀ a d : MultiAsset, a ≠ [] → d ≠ [] →
      (∀ p, (alookup p a).isSome = true → alookup p d = none) →
      (∀ kv, kv ∈ a → kv.2 ≠ ([] : Asset)) →
      (∀ kv, kv ∈ d → kv.2 ≠ ([] : Asset)) →
      MultiAsset.eqB a d = false ∧ MultiAsset.le a d = false
        ∧ MultiAsset.le d a = false) := by
  constructor
  · intro a d ha hd hdisj
    rcases a with _ | ⟨⟨k, v⟩, arest⟩
    · exact absurd rfl ha
    rcases d with _ | ⟨⟨k2, v2⟩, drest⟩
    · exact absurd rfl hd
    have hkd : alookup k ((k2, v2) :: drest) = none := by
      apply hdisj k
      simp [alookup]
    have hk2a : alookup k2 ((k, v) :: arest) = none := by
      rcases h : alookup k2 ((k, v) :: arest) with _ | w
      · rfl
      · exfalso
        have hnone := hdisj k2 (by simp [h])
        have hsome : (alookup k2 ((k2, v2) :: drest)).isSome = true := by
          simp [alookup]
        rw [hnone] at hsome
        cases hsome
    refine ⟨?_, ?_, ?_⟩
    · simp [Asset.eqB, hkd]
    · simp [Asset.le, hkd]
    · simp [Asset.le, hk2a]
  · intro a d ha hd hdisj hane hdne
    rcases a with _ | ⟨⟨p, as⟩, arest⟩
    · exact absurd rfl ha
    rcases d with _ | ⟨⟨q, ds⟩, drest⟩
    · exact absurd rfl hd
    have hpd : alookup p ((q, ds) :: drest) = none := by
      apply hdisj p
      simp [alookup]
    have hqa : alookup q ((p, as) :: arest) = none := by
      rcases h : alookup q ((p, as) :: arest) with _ | w
      · rfl
      · exfalso
        have hnone := hdisj q (by simp [h])
        have hsome : (alookup q ((q, ds) :: drest)).isSome = true := by
          simp [alookup]
        rw [hnone] at hsome
        cases hsome
    have hasne : as ≠ [] := hane (p, as) (List.mem_cons_self _ _)
    have hdsne : ds ≠ [] := hdne (q, ds) (List.mem_cons_self _ _)
    rcases as with _ | ⟨⟨n, w⟩, asrest⟩
    · exact absurd rfl hasne
    rcases ds with _ | ⟨⟨n2, w2⟩, dsrest⟩
    · exact absurd rfl hdsne
    refine ⟨?_, ?_, ?_⟩
    · simp [MultiAsset.eqB, hpd]
    · show (Asset.le ((n, w) :: asrest)
          ((alookup p ((q, (n2, w2) :: dsrest) :: drest)).getD [])
        && arest.all (fun kv =>
          Asset.le kv.2 ((alookup kv.1 ((q, (n2, w2) :: dsrest) :: drest)).getD [])))
        = false
      rw [hpd]
      have hhead : Asset.le ((n, w) :: asrest) (Option.getD none []) = false := by
        simp [Asset.le, alookup]
      rw [hhead, Bool.false_and]
    · show (Asset.le ((n2, w2) :: dsrest)
          ((alookup q ((p, (n, w) :: asrest) :: arest)).getD [])
        && drest.all (fun kv =>
          Asset.le kv.2 ((alookup kv.1 ((p, (n, w) :: asrest) :: arest)).getD [])))
        = false
      rw [hqa]
      have hhead : Asset.le ((n2, w2) :: dsrest) (Option.getD none []) = false := by
        simp [Asset.le, alookup]
      rw [hhead, Bool.false_and]

/-- Witness for C10: the incomparability of two concrete disjoint Assets,
hypotheses decided or discharged directly. -/
theorem claim_C10_incomparable_witness :
    (assetW ≠ [] ∧ assetW2 ≠ [])
    ∧ (Asset.eqB assetW assetW2 = false ∧ Asset.le assetW assetW2 = false
        ∧ Asset.le assetW2 assetW = false) :=
  ⟨⟨by decide, by decide⟩,
   claim_C10_incomparable.1 assetW assetW2 (by decide) (by decide)
     (by
       intro k hk
       by_cases h : k = [1]
       · subst h
         rfl
       · exfalso
         simp [assetW, alookup, h] at hk)⟩
